import Mathlib

/-!
Verification of the table-of-contents core of node-html2epub (src/ebook.js).

The development shallowly embeds the two components with decision logic:

* the anchor resolver (getHeadingID) together with heading extraction
  (parseHeadingsSync), over a small DOM model: a node carries a tag name, an
  id attribute (the empty string models a missing or empty attribute, which
  are indistinguishable to the source's truthiness tests), its own text, and
  an ordered child list;
* the ToC tree builder (buildToC_json) and the renderers buildToC_txt,
  buildToC_xhtml and buildToC_ncx, plus the buildToC format dispatch.

JavaScript exceptions (property accesses on undefined) are modelled by
Option: a run that would throw evaluates to none.  The mutable tree with its
aliased current pointer is modelled by a pure tree plus a path, with every
mutation re-resolved through the path; this is faithful because all source
mutations go through the current alias or the root, and all list mutations
are appends or in-place updates, which never move existing nodes.
-/

/-! ## DOM model and the anchor resolver (ebook.js getHeadingID) -/

inductive Dom where
  | node (tag : String) (ident : String) (ownText : String) (children : List Dom)

def Dom.tag : Dom → String
  | .node t _ _ _ => t

def Dom.ident : Dom → String
  | .node _ i _ _ => i

def Dom.childList : Dom → List Dom
  | .node _ _ _ cs => cs

mutual

/-- Rendered text content of an element, as cheerio's text(): the node's own
text followed by the text of its children. -/
def domText : Dom → String
  | .node _ _ own cs => own ++ domTextList cs

def domTextList : List Dom → String
  | [] => ""
  | c :: cs => domText c ++ domTextList cs

end

/-- Resolve a root-to-element path (child indices) to the element. -/
def domAt : Dom → List Nat → Option Dom
  | d, [] => some d
  | d, i :: p =>
    match (Dom.childList d)[i]? with
    | none => none
    | some c => domAt c p

/-- Accumulated text of the preceding siblings of the element at path p,
scanned backward (nearest sibling first), as the inner while loop of
getHeadingID: var p = elt.prev(); while (p.length) txt += p.text(). -/
def prevSibsText (root : Dom) (p : List Nat) : String :=
  match p.getLast? with
  | none => ""
  | some i =>
    (List.range i).reverse.foldl
      (fun txt m =>
        txt ++ match domAt root (p.dropLast ++ [m]) with
               | some sib => domText sib
               | none => "")
      ""

/-- One iteration of the while loop of getHeadingID at the node whose
REVERSED root-to-element path is rp: stop with the empty string once text
has accumulated, stop with the id when the node carries one, otherwise
accumulate the preceding-sibling text and continue with the parent (the
continuation argument).  Returns the empty string where the source returns
a falsy id ('' or undefined). -/
def getHeadingIDStep (root : Dom) (rp : List Nat) (txt : String)
    (rest : String → String) : String :=
  if txt.length = 0 then
    match domAt root rp.reverse with
    | none => ""
    | some e =>
      if (Dom.ident e).length ≠ 0 then Dom.ident e
      else rest (txt ++ prevSibsText root rp.reverse)
  else ""

/-- The while loop of getHeadingID, walking up the ancestor chain.  The first
argument is the REVERSED root-to-element path, so the step to the parent is
structural; at the root the ancestor chain is exhausted and the walk stops
with no id. -/
def getHeadingIDAux (root : Dom) : List Nat → String → String
  | [], txt => getHeadingIDStep root [] txt (fun _ => "")
  | r :: rp', txt =>
    getHeadingIDStep root (r :: rp') txt (fun t => getHeadingIDAux root rp' t)

/-- ebook.js getHeadingID: find a suitable id for the element at path p; if
there is no leading text between the element and the beginning of an
ancestor, that ancestor's id can be used. -/
def getHeadingID (root : Dom) (p : List Nat) : String :=
  getHeadingIDAux root p.reverse ""

/-! ## Heading extraction (ebook.js parseHeadingsSync) -/

structure Heading where
  level : Nat
  title : String
  href : Option String
deriving DecidableEq, Repr

structure Page where
  href : String
  headings : List Heading

/-- A source page: its href and its (already parsed) markup. -/
structure PageSrc where
  href : String
  doc : Dom

def isHeadingTag (tag : String) : Bool :=
  tag = "h1" || tag = "h2" || tag = "h3" || tag = "h4" || tag = "h5" || tag = "h6"

/-- parseInt(element.tagName.substr(1), 10) - 1 for the six selected tags. -/
def tagLevel : String → Nat
  | "h1" => 0
  | "h2" => 1
  | "h3" => 2
  | "h4" => 3
  | "h5" => 4
  | "h6" => 5
  | _ => 0

mutual

/-- Paths of the h1..h6 elements of a document, in document order, as
selected by the cheerio query in parseHeadingsSync. -/
def headingPathsFrom : Dom → List Nat → List (List Nat)
  | .node tag _ _ cs, p =>
    (if isHeadingTag tag then [p] else []) ++ headingPathsList cs p 0

def headingPathsList : List Dom → List Nat → Nat → List (List Nat)
  | [], _, _ => []
  | c :: cs, p, i => headingPathsFrom c (p ++ [i]) ++ headingPathsList cs p (i + 1)

end

def headingPaths (doc : Dom) : List (List Nat) :=
  headingPathsFrom doc []

/-- Collapse a whitespace run to a single space, as .replace(/\s+/g, ' ')
applied after trimming; the flag records whether the previous character was
part of a whitespace run. -/
def collapseWS : Bool → List Char → List Char
  | _, [] => []
  | prevWs, c :: cs =>
    if c.isWhitespace then
      if prevWs then collapseWS true cs else ' ' :: collapseWS true cs
    else c :: collapseWS false cs

def trimWS (l : List Char) : List Char :=
  ((l.dropWhile Char.isWhitespace).reverse.dropWhile Char.isWhitespace).reverse

/-- .replace(/^\s+|\s+$/g, '').replace(/\s+/g, ' ') from parseHeadingsSync. -/
def normalizeWS (s : String) : String :=
  String.mk (collapseWS false (trimWS s.data))

/-- The body of the per-element callback in parseHeadingsSync: build the
heading record, resolve its anchor, apply the first-heading fallback, and
keep or drop it.  index is the element's position in the page's h1..h6
selection. -/
def parseHeadingElem (doc : Dom) (pageHref : String) (keepAllHeadings : Bool)
    (index : Nat) (p : List Nat) : Option Heading :=
  match domAt doc p with
  | none => none
  | some e =>
    let hid := getHeadingID doc p
    let href? : Option String :=
      if hid.length ≠ 0 then some (pageHref ++ "#" ++ hid)
      else if index = 0 then some pageHref
      else none
    if href?.isSome || keepAllHeadings then
      some { level := tagLevel (Dom.tag e), title := normalizeWS (domText e), href := href? }
    else none

def parsePage (keepAllHeadings : Bool) (src : PageSrc) : Page :=
  { href := src.href,
    headings := (headingPaths src.doc).enum.filterMap
      (fun ip => parseHeadingElem src.doc src.href keepAllHeadings ip.1 ip.2) }

/-- ebook.js parseHeadingsSync (the file reading and markup parsing are the
external page-loading collaborator; a PageSrc is a loaded page). -/
def parseHeadingsSync (srcs : List PageSrc) (keepAllHeadings : Bool) : List Page :=
  srcs.map (parsePage keepAllHeadings)

/-! ## The flat text renderer (ebook.js buildToC_txt) -/

def indent (level : Nat) : String :=
  "\n    " ++ String.join (List.replicate level "  ")

def buildToC_txt (pages : List Page) (depth : Nat) : String :=
  (pages.foldl
    (fun txt page =>
      page.headings.foldl
        (fun txt h => if h.level < depth then txt ++ indent h.level ++ h.title else txt)
        txt)
    "") ++ "\n"

/-! ## The ToC tree builder (ebook.js buildToC_json) -/

/-- A node of the mutable ToC tree: the root toc object (title and href
absent), a pushed heading entry, or a synthesized placeholder.  children is
present exactly when the object has a children array. -/
inductive JTree where
  | node (title : Option String) (href : Option String) (children : Option (List JTree))

def JTree.title : JTree → Option String
  | .node t _ _ => t

def JTree.href : JTree → Option String
  | .node _ h _ => h

def JTree.children? : JTree → Option (List JTree)
  | .node _ _ cs => cs

/-- Resolve a path (child indices) in the tree; none models a property
access on a missing child or children array (a thrown TypeError). -/
def getN : JTree → List Nat → Option JTree
  | t, [] => some t
  | t, i :: p =>
    match JTree.children? t with
    | none => none
    | some cs =>
      match cs[i]? with
      | none => none
      | some c => getN c p

/-- Apply f to the node at the path, rebuilding the spine. -/
def modifyN (f : JTree → Option JTree) : JTree → List Nat → Option JTree
  | t, [] => f t
  | t, i :: p =>
    match t with
    | .node _ _ none => none
    | .node a b (some cs) =>
      match cs[i]? with
      | none => none
      | some c =>
        match modifyN f c p with
        | none => none
        | some c' => some (.node a b (some (cs.set i c')))

/-- current.children.push(x): fails when children is absent. -/
def pushChild (t : JTree) (p : List Nat) (x : JTree) : Option JTree :=
  modifyN
    (fun n => match n with
      | .node _ _ none => none
      | .node a b (some cs) => some (.node a b (some (cs ++ [x]))))
    t p

/-- current.children = cs (plain assignment, always succeeds on a node). -/
def setChildren (t : JTree) (p : List Nat) (cs : List JTree) : Option JTree :=
  modifyN (fun n => some (.node n.title n.href (some cs))) t p

/-- current.children[current.children.length - 1] as a path step; an empty
or absent children array leads to a dereference of undefined. -/
def lastChildPath (t : JTree) (p : List Nat) : Option (List Nat) :=
  match getN t p with
  | none => none
  | some n =>
    match JTree.children? n with
    | none => none
    | some cs => if cs.length = 0 then none else some (p ++ [cs.length - 1])

/-- The ascend branch: current = toc, then descend k times through each
level's last child. -/
def descendLast (t : JTree) : Nat → List Nat → Option (List Nat)
  | 0, p => some p
  | k + 1, p =>
    match lastChildPath t p with
    | none => none
    | some p' => descendLast t k p'

/-- The entry pushed for a heading: { title: heading.title, href: heading.href }. -/
def mkEntry (h : Heading) : JTree :=
  .node (some h.title) h.href none

/-- A synthesized placeholder entry (the empty object literal). -/
def phEntry : JTree :=
  .node none none none

/-- One iteration body of the lenient non-contiguous branch, k times:
if (!current.children.length) current.children.push(RawBraces);
current = current.children[last]; current.children = []. -/
def lenientLoop (t : JTree) (p : List Nat) : Nat → Option (JTree × List Nat)
  | 0 => some (t, p)
  | k + 1 =>
    match getN t p with
    | none => none
    | some n =>
      match JTree.children? n with
      | none => none
      | some cs =>
        match (if cs.length = 0 then pushChild t p phEntry else some t) with
        | none => none
        | some t1 =>
          match getN t1 p with
          | none => none
          | some n1 =>
            match JTree.children? n1 with
            | none => none
            | some cs1 =>
              if cs1.length = 0 then none
              else
                match setChildren t1 (p ++ [cs1.length - 1]) [] with
                | none => none
                | some t2 => lenientLoop t2 (p ++ [cs1.length - 1]) k

/-- The console.error message of the non-contiguous branch. -/
def jumpMsg (h : Heading) : String :=
  "non-continous heading (h" ++ toString (h.level + 1) ++ "): " ++ h.title

/-- Builder state: the tree, the path of the current insertion point, and
currentLevel. -/
structure TB where
  toc : JTree
  cur : List Nat
  currentLevel : Nat

def initTB : TB :=
  { toc := .node none none (some []), cur := [], currentLevel := 0 }

/-- The per-heading body of buildToC_json.  Returns the diagnostics emitted
by this heading and the next state (none models a thrown TypeError). -/
def tbStep (depth : Nat) (strict : Bool) (st : TB) (h : Heading) :
    List String × Option TB :=
  if h.level < depth then
    if h.level < st.currentLevel then
      ([],
        match descendLast st.toc h.level [] with
        | none => none
        | some p =>
          match pushChild st.toc p (mkEntry h) with
          | none => none
          | some toc' => some { toc := toc', cur := p, currentLevel := h.level })
    else if h.level = st.currentLevel + 1 then
      ([],
        match lastChildPath st.toc st.cur with
        | none => none
        | some p =>
          match setChildren st.toc p [] with
          | none => none
          | some t1 =>
            match pushChild t1 p (mkEntry h) with
            | none => none
            | some t2 => some { toc := t2, cur := p, currentLevel := h.level })
    else if st.currentLevel + 1 < h.level then
      ([jumpMsg h],
        if strict then some st
        else
          match lenientLoop st.toc st.cur (h.level - st.currentLevel) with
          | none => none
          | some (t1, p) =>
            match pushChild t1 p (mkEntry h) with
            | none => none
            | some t2 => some { toc := t2, cur := p, currentLevel := h.level })
    else
      ([],
        match pushChild st.toc st.cur (mkEntry h) with
        | none => none
        | some toc' => some { toc := toc', cur := st.cur, currentLevel := h.level })
  else ([], some st)

/-- Fold the builder over one page's headings, accumulating diagnostics; a
thrown exception (none) aborts the rest of the run. -/
def tbRun (depth : Nat) (strict : Bool) :
    List String × Option TB → List Heading → List String × Option TB
  | acc, [] => acc
  | (ds, none), _ :: _ => (ds, none)
  | (ds, some st), h :: hs =>
    let r := tbStep depth strict st h
    tbRun depth strict (ds ++ r.1, r.2) hs

def rootChildren : JTree → List JTree
  | .node _ _ none => []
  | .node _ _ (some cs) => cs

/-- ebook.js buildToC_json: returns the diagnostics printed to the console
and toc.children (none when the run throws). -/
def buildToC_json (pages : List Page) (depth : Nat) (strict : Bool) :
    List String × Option (List JTree) :=
  let r := pages.foldl (fun acc page => tbRun depth strict acc page.headings) ([], some initTB)
  (r.1, r.2.map (fun st => rootChildren st.toc))

/-! ## Depth-first traversal of the built tree (the projected tree order) -/

mutual

def dfsEntry (d : Nat) : JTree → List (Nat × Option String)
  | .node t _ none => [(d, t)]
  | .node t _ (some cs) => (d, t) :: dfsChildren (d + 1) cs

def dfsChildren (d : Nat) : List JTree → List (Nat × Option String)
  | [] => []
  | c :: cs => dfsEntry d c ++ dfsChildren d cs

end

/-- The flat heading stream the builder consumes, across all pages. -/
def flatHeadings (pages : List Page) : List Heading :=
  pages.flatMap (fun page => page.headings)

/-- Tree order of the flat text renderer's output: each in-range heading at
its own level, in encounter order.  buildToC_txt is exactly the rendering of
this list (theorem buildToC_txt_renders below). -/
def txtProj (pages : List Page) (depth : Nat) : List (Nat × String) :=
  (flatHeadings pages).filterMap
    (fun h => if h.level < depth then some (h.level, h.title) else none)

/-! ## The EPUB3 navigation renderer (ebook.js buildToC_xhtml)

A list item records the heading level it was created with (used for the
indent text), its title, its link, and the ordered lists appended into it.
An ordered list is a plain li list; the document root is the nav's ol.  A
cheerio reference to an ol element is a path of (li index, ol index) steps
from the root ol; these stay valid because every mutation is an append. -/

inductive XLi where
  | mk (level : Nat) (title : String) (href : Option String) (ols : List (List XLi))

def XLi.level : XLi → Nat
  | .mk l _ _ _ => l

def XLi.title : XLi → String
  | .mk _ t _ _ => t

def XLi.linkHref : XLi → Option String
  | .mk _ _ h _ => h

def XLi.ols : XLi → List (List XLi)
  | .mk _ _ _ os => os

/-- Resolve an ol path. -/
def getOlSub : List XLi → List (Nat × Nat) → Option (List XLi)
  | lis, [] => some lis
  | lis, (i, j) :: p =>
    match lis[i]? with
    | none => none
    | some li =>
      match (XLi.ols li)[j]? with
      | none => none
      | some ol => getOlSub ol p

/-- Rebuild the document applying f to the ol at the path. -/
def modifyOlSub (f : List XLi → Option (List XLi)) :
    List XLi → List (Nat × Nat) → Option (List XLi)
  | lis, [] => f lis
  | lis, (i, j) :: p =>
    match lis[i]? with
    | none => none
    | some li =>
      match (XLi.ols li)[j]? with
      | none => none
      | some ol =>
        match modifyOlSub f ol p with
        | none => none
        | some ol' =>
          some (lis.set i (XLi.mk li.level li.title li.linkHref (li.ols.set j ol')))

/-- ol.append(li). -/
def appendLiAt (root : List XLi) (p : List (Nat × Nat)) (li : XLi) : Option (List XLi) :=
  modifyOlSub (fun lis => some (lis ++ [li])) root p

/-- li.append(newOl) for the li at (p, i). -/
def appendOlInLi (root : List XLi) (p : List (Nat × Nat)) (i : Nat) (newOl : List XLi) :
    Option (List XLi) :=
  modifyOlSub
    (fun lis =>
      match lis[i]? with
      | none => none
      | some li => some (lis.set i (XLi.mk li.level li.title li.linkHref (li.ols ++ [newOl]))))
    root p

mutual

/-- Document-order (li path) list of the li elements inside an ol, as
found by find('li'): each li, then the lis of its appended ols. -/
def liPathsOfOl (p : List (Nat × Nat)) (i : Nat) : List XLi → List (List (Nat × Nat) × Nat)
  | [] => []
  | li :: rest => (p, i) :: liPathsOfLi p i li ++ liPathsOfOl p (i + 1) rest

def liPathsOfLi (p : List (Nat × Nat)) (i : Nat) : XLi → List (List (Nat × Nat) × Nat)
  | .mk _ _ _ ols => liPathsOfOls p i 0 ols

def liPathsOfOls (p : List (Nat × Nat)) (i : Nat) (j : Nat) :
    List (List XLi) → List (List (Nat × Nat) × Nat)
  | [] => []
  | ol :: rest => liPathsOfOl (p ++ [(i, j)]) 0 ol ++ liPathsOfOls p i (j + 1) rest

end

mutual

/-- Document-order paths of the ol elements strictly inside an ol, as found
by find('ol'). -/
def olPathsIn (p : List (Nat × Nat)) (i : Nat) : List XLi → List (List (Nat × Nat))
  | [] => []
  | li :: rest => olPathsInLi p i li ++ olPathsIn p (i + 1) rest

def olPathsInLi (p : List (Nat × Nat)) (i : Nat) : XLi → List (List (Nat × Nat))
  | .mk _ _ _ ols => olPathsInOls p i 0 ols

def olPathsInOls (p : List (Nat × Nat)) (i : Nat) (j : Nat) :
    List (List XLi) → List (List (Nat × Nat))
  | [] => []
  | ol :: rest => (p ++ [(i, j)]) :: olPathsIn (p ++ [(i, j)]) 0 ol ++ olPathsInOls p i (j + 1) rest

end

/-- The ol array of buildToC_xhtml: a JavaScript array with holes.  A level
with no assignment yet is undefined (outer none: dereferencing it throws); a
level can also hold an empty cheerio selection (inner none: appends to it
are silent no-ops). -/
def selLookup (assigns : List (Nat × Option (List (Nat × Nat)))) (l : Nat) :
    Option (Option (List (Nat × Nat))) :=
  match assigns.find? (fun q => q.1 == l) with
  | some q => some q.2
  | none => none

structure XB where
  root : List XLi
  ols : List (Nat × Option (List (Nat × Nat)))
  currentLevel : Nat

def initXB : XB :=
  { root := [], ols := [(0, some [])], currentLevel := 0 }

def mkLi (h : Heading) : XLi :=
  .mk h.level h.title h.href []

/-- The per-heading body of buildToC_xhtml. -/
def xbStep (depth : Nat) (st : XB) (h : Heading) : Option XB :=
  if h.level < depth then
    if h.level ≤ st.currentLevel then
      match selLookup st.ols h.level with
      | none => none
      | some none => some { st with currentLevel := h.level }
      | some (some p) =>
        match appendLiAt st.root p (mkLi h) with
        | none => none
        | some root' => some { st with root := root', currentLevel := h.level }
    else
      match selLookup st.ols st.currentLevel with
      | none => none
      | some none =>
        some { root := st.root, ols := ((h.level, none) :: st.ols), currentLevel := h.level }
      | some (some p) =>
        match getOlSub st.root p with
        | none => none
        | some sub =>
          match (liPathsOfOl p 0 sub).getLast? with
          | none =>
            match getOlSub st.root p with
            | none => none
            | some sub2 =>
              some { root := st.root,
                     ols := ((h.level, (olPathsIn p 0 sub2).getLast?) :: st.ols),
                     currentLevel := h.level }
          | some (q, i) =>
            match appendOlInLi st.root q i [mkLi h] with
            | none => none
            | some root' =>
              match getOlSub root' p with
              | none => none
              | some sub2 =>
                some { root := root',
                       ols := ((h.level, (olPathsIn p 0 sub2).getLast?) :: st.ols),
                       currentLevel := h.level }
  else some st

def xbRun (depth : Nat) : Option XB → List Heading → Option XB
  | acc, [] => acc
  | none, _ :: _ => none
  | some st, h :: hs => xbRun depth (xbStep depth st h) hs

/-- ebook.js buildToC_xhtml, as the structured nav document (none models a
thrown TypeError). -/
def buildToC_xhtml (pages : List Page) (depth : Nat) : Option (List XLi) :=
  (pages.foldl (fun acc page => xbRun depth acc page.headings) (some initXB)).map
    (fun st => st.root)

mutual

/-- Tree order projected out of the navigation document: each li's title at
its ol nesting depth, in document order. -/
def xhtmlProjOl (d : Nat) : List XLi → List (Nat × String)
  | [] => []
  | li :: rest => xhtmlProjLi d li ++ xhtmlProjOl d rest

def xhtmlProjLi (d : Nat) : XLi → List (Nat × String)
  | .mk _ t _ ols => (d, t) :: xhtmlProjOls (d + 1) ols

def xhtmlProjOls (d : Nat) : List (List XLi) → List (Nat × String)
  | [] => []
  | ol :: rest => xhtmlProjOl d ol ++ xhtmlProjOls d rest

end

mutual

/-- Serialization of the nav document, following the markup strings the
source appends (indent text before each li, a or span for the title). -/
def serializeOl : List XLi → String
  | [] => ""
  | li :: rest => serializeLi li ++ serializeOl rest

def serializeLi : XLi → String
  | .mk level title href ols =>
    indent level ++ "<li>" ++
      (match href with
       | some h => "<a href=\"" ++ h ++ "\">" ++ title ++ "</a>"
       | none => "<span>" ++ title ++ "</span>") ++
      serializeOls ols ++ "</li>"

def serializeOls : List (List XLi) → String
  | [] => ""
  | ol :: rest => "<ol>" ++ serializeOl ol ++ "</ol>" ++ serializeOls rest

end

/-! ## The EPUB2 navigation renderer (ebook.js buildToC_ncx) -/

inductive NavPoint where
  | mk (playOrder : Nat) (level : Nat) (title : String) (href : Option String)
      (children : List NavPoint)

def NavPoint.title : NavPoint → String
  | .mk _ _ t _ _ => t

def NavPoint.kids : NavPoint → List NavPoint
  | .mk _ _ _ _ cs => cs

/-- Resolve a navPoint container path: [] is the navMap, i :: p descends
into the i-th navPoint's appended children. -/
def getCont : List NavPoint → List Nat → Option (List NavPoint)
  | cs, [] => some cs
  | cs, i :: p =>
    match cs[i]? with
    | none => none
    | some c => getCont (NavPoint.kids c) p

def modifyCont (f : List NavPoint → Option (List NavPoint)) :
    List NavPoint → List Nat → Option (List NavPoint)
  | cs, [] => f cs
  | cs, i :: p =>
    match cs[i]? with
    | none => none
    | some (NavPoint.mk po lv t h kids) =>
      match modifyCont f kids p with
      | none => none
      | some kids' => some (cs.set i (NavPoint.mk po lv t h kids'))

def appendPointAt (navMap : List NavPoint) (p : List Nat) (x : NavPoint) :
    Option (List NavPoint) :=
  modifyCont (fun cs => some (cs ++ [x])) navMap p

mutual

/-- Document-order container paths of the navPoints inside a container, as
found by find('navPoint'). -/
def npPaths (p : List Nat) (i : Nat) : List NavPoint → List (List Nat)
  | [] => []
  | c :: rest => (p ++ [i]) :: npPathsKids (p ++ [i]) c ++ npPaths p (i + 1) rest

def npPathsKids (p : List Nat) : NavPoint → List (List Nat)
  | .mk _ _ _ _ kids => npPaths p 0 kids

end

structure NB where
  navMap : List NavPoint
  nav : List (Nat × Option (List Nat))
  currentLevel : Nat
  playOrder : Nat

def initNB : NB :=
  { navMap := [], nav := [(0, some [])], currentLevel := 0, playOrder := 1 }

def navLookup (assigns : List (Nat × Option (List Nat))) (l : Nat) :
    Option (Option (List Nat)) :=
  match assigns.find? (fun q => q.1 == l) with
  | some q => some q.2
  | none => none

/-- The per-heading body of buildToC_ncx.  In the new-branch case the source
assigns nav[heading.level] = nav[currentLevel].find('navPoint').last() and
then appends the point into that same last navPoint. -/
def nbStep (depth : Nat) (st : NB) (h : Heading) : Option NB :=
  if h.level < depth then
    let point : NavPoint := .mk st.playOrder h.level h.title h.href []
    if h.level ≤ st.currentLevel then
      match navLookup st.nav h.level with
      | none => none
      | some none =>
        some { st with currentLevel := h.level, playOrder := st.playOrder + 1 }
      | some (some p) =>
        match appendPointAt st.navMap p point with
        | none => none
        | some nm =>
          some { st with navMap := nm, currentLevel := h.level, playOrder := st.playOrder + 1 }
    else
      match navLookup st.nav st.currentLevel with
      | none => none
      | some none =>
        some { st with
               nav := ((h.level, none) :: st.nav),
               currentLevel := h.level, playOrder := st.playOrder + 1 }
      | some (some p) =>
        match getCont st.navMap p with
        | none => none
        | some cont =>
          match (npPaths p 0 cont).getLast? with
          | none =>
            some { st with
                   nav := ((h.level, none) :: st.nav),
                   currentLevel := h.level, playOrder := st.playOrder + 1 }
          | some q =>
            match appendPointAt st.navMap q point with
            | none => none
            | some nm =>
              some { navMap := nm, nav := ((h.level, some q) :: st.nav),
                     currentLevel := h.level, playOrder := st.playOrder + 1 }
  else some st

def nbRun (depth : Nat) : Option NB → List Heading → Option NB
  | acc, [] => acc
  | none, _ :: _ => none
  | some st, h :: hs => nbRun depth (nbStep depth st h) hs

/-- ebook.js buildToC_ncx, as the structured navMap. -/
def buildToC_ncx (pages : List Page) (depth : Nat) : Option (List NavPoint) :=
  (pages.foldl (fun acc page => nbRun depth acc page.headings) (some initNB)).map
    (fun st => st.navMap)

mutual

/-- Serialization of the navMap, following the navPoint strings the source
appends (an absent href stringifies as undefined, as in JavaScript). -/
def serializeNavMap : List NavPoint → String
  | [] => ""
  | c :: rest => serializePoint c ++ serializeNavMap rest

def serializePoint : NavPoint → String
  | .mk po level title href kids =>
    indent level ++
    "<navPoint id=\"nav_" ++ toString po ++ "\" playOrder=\"" ++ toString po ++ "\">" ++
    "<navLabel><text>" ++ title ++ "</text></navLabel>" ++
    "<content src=\"" ++ (match href with | some h => h | none => "undefined") ++ "\" />" ++
    serializeNavMap kids ++ "</navPoint>"

end

/-! ## JSON serialization (JSON.stringify(toc, null, 2)) -/

def jsonPad (n : Nat) : String :=
  String.join (List.replicate n " ")

mutual

def stringifyEntry (ind : Nat) : JTree → String
  | .node t h cs =>
    let fs :=
      (match t with | some s => ["\"title\": \"" ++ s ++ "\""] | none => []) ++
      (match h with | some s => ["\"href\": \"" ++ s ++ "\""] | none => []) ++
      (match cs with | some l => ["\"children\": " ++ stringifyArr ind l] | none => [])
    match fs with
    | [] => "\x7b\x7d"
    | _ =>
      "\x7b\n" ++ String.intercalate ",\n" (fs.map (fun f => jsonPad (ind + 2) ++ f)) ++
      "\n" ++ jsonPad ind ++ "\x7d"

def stringifyArr (ind : Nat) : List JTree → String
  | [] => "[]"
  | x :: rest =>
    "[\n" ++
    String.intercalate ",\n"
      ((jsonPad (ind + 2) ++ stringifyEntry (ind + 2) x) :: stringifyItems (ind + 2) rest) ++
    "\n" ++ jsonPad ind ++ "]"

def stringifyItems (ind : Nat) : List JTree → List String
  | [] => []
  | x :: rest => (jsonPad ind ++ stringifyEntry ind x) :: stringifyItems ind rest

end

/-! ## The output dispatch (ebook.js buildToC) -/

structure Config where
  format : String
  depth : Nat
  strict : Bool
  keepAllHeadings : Bool
  charset : String
  identifier : String
  docTitle : String
  language : String
  spine : List PageSrc

/-- The ncx document shell around the navMap. -/
def ncxShell (config : Config) (navMap : String) : String :=
  "<?xml version=\"1.0\" encoding=\"" ++ config.charset ++ "\"?>" ++
  "\n<ncx xmlns=\"http://www.daisy.org/z3986/2005/ncx/\" version=\"2005-1\">" ++
  "\n  <head>" ++
  "\n    <meta name=\"dtb:uid\" content=\"" ++ config.identifier ++ "\" />" ++
  "\n    <meta name=\"dtb:depth\" content=\"" ++ toString config.depth ++ "\" />" ++
  "\n  </head>" ++
  "\n  <docTitle>" ++
  "\n    <text>" ++ config.docTitle ++ "</text>" ++
  "\n  </docTitle>" ++
  "\n  <navMap>" ++ navMap ++ "</navMap>" ++
  "\n</ncx>"

/-- The xhtml document shell around the nav ol. -/
def xhtmlShell (config : Config) (ol : String) : String :=
  "<?xml version=\"1.0\" encoding=\"" ++ config.charset ++ "\"?>" ++
  "\n<html xmlns=\"http://www.w3.org/1999/xhtml\" xmlns:epub=\"http://www.idpf.org/2007/ops\">" ++
  "\n<head>" ++
  "\n  <meta charset=\"" ++ config.charset ++ "\" />" ++
  "\n  <title>" ++ config.docTitle ++ "</title>" ++
  "\n  <style type=\"text/css\"> nav ol \x7b list-style-type: none; \x7d </style>" ++
  "\n</head>" ++
  "\n<body>" ++
  "\n  <nav epub:type=\"toc\"><ol>" ++ ol ++ "</ol>\n  </nav>" ++
  "\n</body>" ++
  "\n</html>"

/-- ebook.js buildToC: dispatch on format || config.format.  Returns the
console.error diagnostics and the output text (none models a thrown
exception, some "" the untouched output variable). -/
def buildToC (config : Config) (format : Option String) (pages? : Option (List Page)) :
    List String × Option String :=
  let pages :=
    match pages? with
    | some ps => ps
    | none => parseHeadingsSync config.spine config.keepAllHeadings
  let fmt :=
    match format with
    | none => config.format
    | some s => if s = "" then config.format else s
  if fmt = "txt" then
    ([], some (buildToC_txt pages config.depth))
  else if fmt = "json" then
    let r := buildToC_json pages config.depth config.strict
    (r.1, r.2.map (stringifyArr 0))
  else if fmt = "ncx" then
    ([], (buildToC_ncx pages config.depth).map (fun nm => ncxShell config (serializeNavMap nm)))
  else if fmt = "xhtml" then
    ([], (buildToC_xhtml pages config.depth).map (fun ol => xhtmlShell config (serializeOl ol)))
  else
    (["unsupported output format: \"" ++ config.format ++ "\""], some "")

/-! ## Notions used by the theorems -/

/-- The level stream of the flattened heading stream. -/
def levelsOf (pages : List Page) : List Nat :=
  (flatHeadings pages).map (fun h => h.level)

/-- Levels are non-decreasing and increase by at most 1 at each step. -/
def stepsLE1 : List Nat → Bool
  | [] => true
  | [_] => true
  | a :: b :: rest => (a ≤ b && b ≤ a + 1) && stepsLE1 (b :: rest)

/-- The titles of the in-range headings, in stream order. -/
def inRangeTitles (pages : List Page) (depth : Nat) : List String :=
  (flatHeadings pages).filterMap
    (fun h => if h.level < depth then some h.title else none)

/-- Lift the flat text projection into the common (depth, title?) form. -/
def liftTxt (l : List (Nat × String)) : List (Nat × Option String) :=
  l.map (fun q => (q.1, some q.2))

/-- The while-loop body of getHeadingID as one unfolding step. -/
def idAt (root : Dom) (q : List Nat) : String :=
  match domAt root q with
  | some e => Dom.ident e
  | none => ""

/-- The text accumulated by the walk before it examines the k-th ancestor:
the preceding-sibling text of the element and of each ancestor below the
k-th, in walk order. -/
def ancestorsPrevText (root : Dom) (p : List Nat) (k : Nat) : String :=
  (List.range k).foldl (fun s j => s ++ prevSibsText root (p.take (p.length - j))) ""

/-! ## Concrete documents and pages used by the singular claims -/

def pagesJump : List Page :=
  [⟨"page.html", [⟨0, "A", some "page.html"⟩, ⟨2, "C", some "page.html#c"⟩]⟩]

def pagesZeroOnly : List Page :=
  [⟨"page.html", [⟨0, "A", some "page.html"⟩]⟩]

def pagesLevels0121 : List Page :=
  [⟨"p.html", [⟨0, "a", some "p.html"⟩, ⟨1, "b", none⟩, ⟨2, "c", none⟩, ⟨1, "d", none⟩]⟩]

def pagesSingle2 : List Page :=
  [⟨"p.html", [⟨2, "X", some "p.html"⟩]⟩]

def pagesFirst1 : List Page :=
  [⟨"p.html", [⟨1, "B", some "p.html"⟩]⟩]

/-- Page A of the end-to-end scenario: two headings, no identifiers
anywhere. -/
def docIntro : Dom :=
  .node "body" "" "" [.node "h1" "" "Intro" [], .node "h2" "" "Background" []]

/-- Page B of the end-to-end scenario: one heading, no identifiers. -/
def docConcl : Dom :=
  .node "body" "" "" [.node "h1" "" "Conclusion" []]

def srcsEnd2End : List PageSrc :=
  [⟨"A.html", docIntro⟩, ⟨"B.html", docConcl⟩]

/-- The nested-form output the specification expects of the end-to-end
scenario. -/
def endToEndExpected : List JTree :=
  [JTree.node (some "Intro") (some "A.html")
    (some [JTree.node (some "Background") none none]),
   JTree.node (some "Conclusion") (some "B.html") none]

/-- A document whose heading has no id, no intervening text, and a
grandparent carrying an id. -/
def docAncestor : Dom :=
  .node "body" "sec" "" [.node "div" "" "" [.node "h2" "" "T" []]]

/-- The same shape with non-empty text before the heading's parent. -/
def docAncestorBlocked : Dom :=
  .node "body" "sec" "" [.node "p" "" "before" [], .node "div" "" "" [.node "h2" "" "T" []]]

def cfgUnsupported : Config :=
  { format := "pdf", depth := 6, strict := false, keepAllHeadings := false,
    charset := "UTF-8", identifier := "uid", docTitle := "T", language := "en", spine := [] }

/-! ## Lemmas: paths of last children and depth-first order -/

theorem dfsChildren_append (d : Nat) (l1 l2 : List JTree) :
    dfsChildren d (l1 ++ l2) = dfsChildren d l1 ++ dfsChildren d l2 := by
  induction l1 with
  | nil => simp [dfsChildren]
  | cons c cs ih => simp [dfsChildren, ih]

/-- The path descends through the last child of each node it crosses (the
shape of every insertion-point path of the builder). -/
inductive LastsTo : JTree → List Nat → Prop where
  | nil (t : JTree) : LastsTo t []
  | cons (a b : Option String) (cs : List JTree) (c : JTree) (i : Nat) (p : List Nat)
      (hlen : i + 1 = cs.length) (hget : cs[i]? = some c) (htail : LastsTo c p) :
      LastsTo (JTree.node a b (some cs)) (i :: p)

theorem list_last_decomp {α : Type} :
    ∀ (cs : List α) (i : Nat) (c : α), i + 1 = cs.length → cs[i]? = some c →
      cs.dropLast ++ [c] = cs := by
  intro cs
  induction cs with
  | nil => intro i c h; simp at h
  | cons x xs ih =>
    intro i c hlen hget
    cases xs with
    | nil =>
      have hi : i = 0 := by simpa using hlen
      subst hi
      simp_all
    | cons y ys =>
      have hi : ∃ j, i = j + 1 := by
        refine ⟨i - 1, ?_⟩
        simp at hlen
        omega
      obtain ⟨j, rfl⟩ := hi
      have h1 : j + 1 = (y :: ys).length := by simpa using hlen
      have h2 : (y :: ys)[j]? = some c := by simpa using hget
      have := ih j c h1 h2
      simpa using congrArg (x :: ·) this

theorem list_set_last {α : Type} :
    ∀ (cs : List α) (i : Nat) (c' : α), i + 1 = cs.length →
      cs.set i c' = cs.dropLast ++ [c'] := by
  intro cs
  induction cs with
  | nil => intro i c h; simp at h
  | cons x xs ih =>
    intro i c' hlen
    cases xs with
    | nil =>
      have hi : i = 0 := by simpa using hlen
      subst hi
      simp
    | cons y ys =>
      have hi : ∃ j, i = j + 1 := by
        refine ⟨i - 1, ?_⟩
        simp at hlen
        omega
      obtain ⟨j, rfl⟩ := hi
      have h1 : j + 1 = (y :: ys).length := by simpa using hlen
      have := ih j c' h1
      simpa using congrArg (x :: ·) this

theorem dfsChildren_singleton (d : Nat) (c : JTree) :
    dfsChildren d [c] = dfsEntry d c := by
  simp [dfsChildren]

/-- Replacing the node at a last-children path rewrites the final segment of
the depth-first order: everything after the node's position is inside its
subtree, so the subtree's serialization is the suffix. -/
theorem modify_dfs (f : JTree → Option JTree) :
    ∀ (p : List Nat) (t n n' t' : JTree) (d : Nat),
      LastsTo t p → getN t p = some n → f n = some n' → modifyN f t p = some t' →
      ∃ front, dfsEntry d t = front ++ dfsEntry (d + p.length) n ∧
               dfsEntry d t' = front ++ dfsEntry (d + p.length) n' := by
  intro p
  induction p with
  | nil =>
    intro t n n' t' d _ hget hf hmod
    simp [getN] at hget
    simp [modifyN] at hmod
    subst hget
    rw [hmod] at hf
    simp at hf
    subst hf
    exact ⟨[], by simp, by simp⟩
  | cons i p ih =>
    intro t n n' t' d hlast hget hf hmod
    cases hlast with
    | cons a b cs c i p hlen hgetc htail =>
      rw [show getN (JTree.node a b (some cs)) (i :: p) =
            match cs[i]? with
            | none => none
            | some c => getN c p from rfl] at hget
      rw [hgetc] at hget
      simp only at hget
      rw [show modifyN f (JTree.node a b (some cs)) (i :: p) =
            match cs[i]? with
            | none => none
            | some c =>
              match modifyN f c p with
              | none => none
              | some c' => some (JTree.node a b (some (cs.set i c'))) from rfl] at hmod
      rw [hgetc] at hmod
      simp only at hmod
      rcases hc' : modifyN f c p with _ | c'
      · rw [hc'] at hmod; simp at hmod
      · rw [hc'] at hmod
        simp at hmod
        obtain ⟨front, h1, h2⟩ := ih c n n' c' (d + 1) htail hget hf hc'
        refine ⟨(d, a) :: (dfsChildren (d + 1) cs.dropLast ++ front), ?_, ?_⟩
        · have hdecomp := list_last_decomp cs i c hlen hgetc
          calc dfsEntry d (JTree.node a b (some cs))
              = (d, a) :: dfsChildren (d + 1) cs := by simp [dfsEntry]
            _ = (d, a) :: dfsChildren (d + 1) (cs.dropLast ++ [c]) := by rw [hdecomp]
            _ = (d, a) :: (dfsChildren (d + 1) cs.dropLast ++ dfsEntry (d + 1) c) := by
                rw [dfsChildren_append, dfsChildren_singleton]
            _ = (d, a) :: (dfsChildren (d + 1) cs.dropLast ++
                  (front ++ dfsEntry (d + 1 + p.length) n)) := by rw [h1]
            _ = (d, a) :: (dfsChildren (d + 1) cs.dropLast ++ front) ++
                  dfsEntry (d + (i :: p).length) n := by
                have harith : d + 1 + p.length = d + (p.length + 1) := by omega
                simp [List.append_assoc, harith]
        · have hset := list_set_last cs i c' hlen
          rw [← hmod]
          calc dfsEntry d (JTree.node a b (some (cs.set i c')))
              = (d, a) :: dfsChildren (d + 1) (cs.set i c') := by simp [dfsEntry]
            _ = (d, a) :: dfsChildren (d + 1) (cs.dropLast ++ [c']) := by rw [hset]
            _ = (d, a) :: (dfsChildren (d + 1) cs.dropLast ++ dfsEntry (d + 1) c') := by
                rw [dfsChildren_append, dfsChildren_singleton]
            _ = (d, a) :: (dfsChildren (d + 1) cs.dropLast ++
                  (front ++ dfsEntry (d + 1 + p.length) n')) := by rw [h2]
            _ = (d, a) :: (dfsChildren (d + 1) cs.dropLast ++ front) ++
                  dfsEntry (d + (i :: p).length) n' := by
                have harith : d + 1 + p.length = d + (p.length + 1) := by omega
                simp [List.append_assoc, harith]

theorem getN_nil (t : JTree) : getN t [] = some t := rfl

theorem modifyN_nil (f : JTree → Option JTree) (t : JTree) : modifyN f t [] = f t := rfl

theorem getN_cons (a b : Option String) (cs : List JTree) (i : Nat) (p : List Nat) :
    getN (JTree.node a b (some cs)) (i :: p) =
      match cs[i]? with
      | none => none
      | some c => getN c p := rfl

theorem getN_cons_none (a b : Option String) (i : Nat) (p : List Nat) :
    getN (JTree.node a b none) (i :: p) = none := rfl

theorem modifyN_cons (f : JTree → Option JTree) (a b : Option String) (cs : List JTree)
    (i : Nat) (p : List Nat) :
    modifyN f (JTree.node a b (some cs)) (i :: p) =
      match cs[i]? with
      | none => none
      | some c =>
        match modifyN f c p with
        | none => none
        | some c' => some (JTree.node a b (some (cs.set i c'))) := rfl

theorem modifyN_cons_none (f : JTree → Option JTree) (a b : Option String)
    (i : Nat) (p : List Nat) :
    modifyN f (JTree.node a b none) (i :: p) = none := rfl

theorem list_lt_of_getElem? {α : Type} {l : List α} {i : Nat} {c : α}
    (h : l[i]? = some c) : i < l.length := by
  by_contra hle
  push_neg at hle
  rw [List.getElem?_eq_none hle] at h
  cases h

theorem list_getElem?_set_self {α : Type} :
    ∀ (l : List α) (i : Nat) (a : α), i < l.length → (l.set i a)[i]? = some a := by
  intro l
  induction l with
  | nil => intro i a h; simp at h
  | cons x xs ih =>
    intro i a h
    cases i with
    | zero => simp
    | succ j => simpa using ih j a (by simpa using h)

theorem getN_modify (f : JTree → Option JTree) :
    ∀ (p : List Nat) (t t' n n' : JTree),
      modifyN f t p = some t' → getN t p = some n → f n = some n' →
      getN t' p = some n' := by
  intro p
  induction p with
  | nil =>
    intro t t' n n' hmod hget hf
    simp [modifyN] at hmod
    simp [getN] at hget
    subst hget
    rw [hmod] at hf
    simp at hf
    subst hf
    simp [getN]
  | cons i p ih =>
    intro t t' n n' hmod hget hf
    cases t with
    | node a b cso =>
      cases cso with
      | none => rw [modifyN_cons_none] at hmod; cases hmod
      | some cs =>
        rw [modifyN_cons] at hmod
        rw [getN_cons] at hget
        rcases hgc : cs[i]? with _ | c
        · rw [hgc] at hmod; cases hmod
        · rw [hgc] at hmod hget
          simp only at hmod hget
          rcases hmc : modifyN f c p with _ | c'
          · rw [hmc] at hmod; cases hmod
          · rw [hmc] at hmod
            simp at hmod
            subst hmod
            have hc' := ih c c' n n' hmc hget hf
            rw [getN_cons]
            rw [list_getElem?_set_self cs i c' (list_lt_of_getElem? hgc)]
            exact hc'

theorem LastsTo_modify (f : JTree → Option JTree) :
    ∀ (p : List Nat) (t t' : JTree),
      LastsTo t p → modifyN f t p = some t' → LastsTo t' p := by
  intro p
  induction p with
  | nil => intro t t' _ _; exact LastsTo.nil t'
  | cons i p ih =>
    intro t t' hlast hmod
    cases hlast with
    | cons a b cs c i p hlen hgc htail =>
      rw [modifyN_cons, hgc] at hmod
      simp only at hmod
      rcases hmc : modifyN f c p with _ | c'
      · rw [hmc] at hmod; cases hmod
      · rw [hmc] at hmod
        simp at hmod
        subst hmod
        exact LastsTo.cons a b (cs.set i c') c' i p (by simpa using hlen)
          (list_getElem?_set_self cs i c' (list_lt_of_getElem? hgc)) (ih c c' htail hmc)

theorem LastsTo_extend :
    ∀ (p : List Nat) (t n : JTree) (cs : List JTree) (i : Nat) (c : JTree),
      LastsTo t p → getN t p = some n → JTree.children? n = some cs →
      i + 1 = cs.length → cs[i]? = some c → LastsTo t (p ++ [i]) := by
  intro p
  induction p with
  | nil =>
    intro t n cs i c _ hget hcs hlen hgc
    simp [getN] at hget
    subst hget
    cases t with
    | node a b cso =>
      simp [JTree.children?] at hcs
      subst hcs
      exact LastsTo.cons a b cs c i [] hlen hgc (LastsTo.nil c)
  | cons j p ih =>
    intro t n cs i c hlast hget hcs hlen hgc
    cases hlast with
    | cons a b cs0 c0 j p hlen0 hgc0 htail =>
      rw [getN_cons, hgc0] at hget
      simp only at hget
      exact LastsTo.cons a b cs0 c0 j (p ++ [i]) hlen0 hgc0
        (ih c0 n cs i c htail hget hcs hlen hgc)

theorem lastChildPath_spec (t : JTree) (p p' : List Nat)
    (hlast : LastsTo t p) (h : lastChildPath t p = some p') :
    LastsTo t p' ∧ p'.length = p.length + 1 := by
  unfold lastChildPath at h
  rcases hg : getN t p with _ | n
  · rw [hg] at h; cases h
  · rw [hg] at h
    simp only at h
    rcases hcs : JTree.children? n with _ | cs
    · rw [hcs] at h; cases h
    · rw [hcs] at h
      simp only at h
      by_cases hz : cs.length = 0
      · simp [hz] at h
      · simp [hz] at h
        subst h
        have hlt : cs.length - 1 < cs.length := by omega
        have hc : cs[cs.length - 1]? = some (cs.get ⟨cs.length - 1, hlt⟩) :=
          List.getElem?_eq_getElem hlt
        exact ⟨LastsTo_extend p t n cs (cs.length - 1) _ hlast hg hcs (by omega) hc,
          by simp⟩

theorem descendLast_cons (t : JTree) (k : Nat) (p : List Nat) :
    descendLast t (k + 1) p =
      match lastChildPath t p with
      | none => none
      | some p' => descendLast t k p' := rfl

theorem descendLast_spec (t : JTree) :
    ∀ (k : Nat) (p q : List Nat), LastsTo t p → descendLast t k p = some q →
      LastsTo t q ∧ q.length = p.length + k := by
  intro k
  induction k with
  | zero =>
    intro p q h hd
    simp [descendLast] at hd
    subst hd
    exact ⟨h, by simp⟩
  | succ m ih =>
    intro p q h hd
    rw [descendLast_cons] at hd
    rcases hl : lastChildPath t p with _ | p'
    · rw [hl] at hd; cases hd
    · rw [hl] at hd
      simp only at hd
      obtain ⟨h1, h2⟩ := lastChildPath_spec t p p' h hl
      obtain ⟨h3, h4⟩ := ih p' q h1 hd
      exact ⟨h3, by omega⟩

theorem modifyN_some (f : JTree → Option JTree) :
    ∀ (p : List Nat) (t n n' : JTree), getN t p = some n → f n = some n' →
      ∃ t', modifyN f t p = some t' := by
  intro p
  induction p with
  | nil =>
    intro t n n' hget hf
    simp [getN] at hget
    subst hget
    exact ⟨n', by simpa [modifyN] using hf⟩
  | cons i p ih =>
    intro t n n' hget hf
    cases t with
    | node a b cso =>
      cases cso with
      | none => rw [getN_cons_none] at hget; cases hget
      | some cs =>
        rw [getN_cons] at hget
        rcases hgc : cs[i]? with _ | c
        · rw [hgc] at hget; cases hget
        · rw [hgc] at hget
          simp only at hget
          obtain ⟨c', hc'⟩ := ih c n n' hget hf
          exact ⟨JTree.node a b (some (cs.set i c')), by rw [modifyN_cons, hgc]; simp [hc']⟩

theorem getN_append :
    ∀ (p q : List Nat) (t : JTree),
      getN t (p ++ q) =
        match getN t p with
        | none => none
        | some n => getN n q := by
  intro p
  induction p with
  | nil => intro q t; simp [getN]
  | cons i p ih =>
    intro q t
    cases t with
    | node a b cso =>
      cases cso with
      | none => simp [getN_cons_none]
      | some cs =>
        rw [show (i :: p) ++ q = i :: (p ++ q) from rfl, getN_cons, getN_cons]
        rcases hgc : cs[i]? with _ | c
        · simp
        · simp only
          exact ih q c

theorem modifyN_extract (f : JTree → Option JTree) :
    ∀ (p : List Nat) (t t' : JTree), modifyN f t p = some t' →
      ∃ n n', getN t p = some n ∧ f n = some n' := by
  intro p
  induction p with
  | nil =>
    intro t t' hmod
    simp [modifyN] at hmod
    exact ⟨t, t', by simp [getN], hmod⟩
  | cons i p ih =>
    intro t t' hmod
    cases t with
    | node a b cso =>
      cases cso with
      | none => rw [modifyN_cons_none] at hmod; cases hmod
      | some cs =>
        rw [modifyN_cons] at hmod
        rcases hgc : cs[i]? with _ | c
        · rw [hgc] at hmod; cases hmod
        · rw [hgc] at hmod
          simp only at hmod
          rcases hmc : modifyN f c p with _ | c'
          · rw [hmc] at hmod; cases hmod
          · obtain ⟨n, n', h1, h2⟩ := ih c c' hmc
            exact ⟨n, n', by rw [getN_cons, hgc]; simpa using h1, h2⟩

/-- The invariant of the builder state: the insertion point is a last-children
path whose length is currentLevel, its node has a children array, and the
most recently pushed entry there (the children's last element, when any) has
no children array yet. -/
def TBInv (st : TB) : Prop :=
  LastsTo st.toc st.cur ∧
  st.cur.length = st.currentLevel ∧
  ∃ n cs, getN st.toc st.cur = some n ∧ JTree.children? n = some cs ∧
    (∀ c, cs.getLast? = some c → JTree.children? c = none)

theorem initTB_inv : TBInv initTB := by
  refine ⟨LastsTo.nil _, rfl, ⟨JTree.node none none (some []), [], rfl, rfl, ?_⟩⟩
  intro c hc
  simp at hc

theorem lenientLoop_succ (t : JTree) (p : List Nat) (k : Nat) :
    lenientLoop t p (k + 1) =
      match getN t p with
      | none => none
      | some n =>
        match JTree.children? n with
        | none => none
        | some cs =>
          match (if cs.length = 0 then pushChild t p phEntry else some t) with
          | none => none
          | some t1 =>
            match getN t1 p with
            | none => none
            | some n1 =>
              match JTree.children? n1 with
              | none => none
              | some cs1 =>
                if cs1.length = 0 then none
                else
                  match setChildren t1 (p ++ [cs1.length - 1]) [] with
                  | none => none
                  | some t2 => lenientLoop t2 (p ++ [cs1.length - 1]) k := rfl

theorem lenientLoop_spec (d : Nat) :
    ∀ (k : Nat) (t : JTree) (p : List Nat) (t' : JTree) (p' : List Nat),
      LastsTo t p →
      (∃ n cs, getN t p = some n ∧ JTree.children? n = some cs ∧
        (∀ c, cs.getLast? = some c → JTree.children? c = none)) →
      lenientLoop t p k = some (t', p') →
      LastsTo t' p' ∧ p'.length = p.length + k ∧
      (∃ n' cs', getN t' p' = some n' ∧ JTree.children? n' = some cs' ∧
        (∀ c, cs'.getLast? = some c → JTree.children? c = none)) ∧
      ∃ pads, dfsEntry d t' = dfsEntry d t ++ pads ∧
        ∀ x ∈ pads, Prod.snd x = (none : Option String) := by
  intro k
  induction k with
  | zero =>
    intro t p t' p' hlast hn hloop
    simp [lenientLoop] at hloop
    obtain ⟨rfl, rfl⟩ := hloop
    exact ⟨hlast, by simp, hn, [], by simp, by simp⟩
  | succ m ih =>
    intro t p t' p' hlast hn hloop
    obtain ⟨n, cs, hget, hcs, hlastkid⟩ := hn
    rw [lenientLoop_succ, hget] at hloop
    simp only at hloop
    rw [hcs] at hloop
    simp only at hloop
    by_cases hz : cs.length = 0
    · -- empty children: push a placeholder first
      have hcsnil : cs = [] := List.length_eq_zero.mp hz
      subst hcsnil
      rw [if_pos hz] at hloop
      rcases hpush : pushChild t p phEntry with _ | t1
      · rw [hpush] at hloop; cases hloop
      · rw [hpush] at hloop
        simp only at hloop
        -- the pushed placeholder becomes the only child
        obtain ⟨n0, n0', hget0, hf0⟩ := modifyN_extract _ p t t1 hpush
        rw [hget] at hget0
        have hn0 : n = n0 := by injection hget0
        subst hn0
        cases n with
        | node a b cso =>
          simp [JTree.children?] at hcs
          subst hcs
          simp only at hf0
          have hn0' : n0' = JTree.node a b (some [phEntry]) := by simpa using hf0.symm
          subst hn0'
          have hget1 : getN t1 p = some (JTree.node a b (some [phEntry])) :=
            getN_modify _ p t t1 _ _ hpush hget hf0
          have hlast1 : LastsTo t1 p := LastsTo_modify _ p t t1 hlast hpush
          obtain ⟨front, hfr1, hfr2⟩ :=
            modify_dfs _ p t _ _ t1 d hlast hget hf0 hpush
          rw [hget1] at hloop
          simp only [JTree.children?] at hloop
          rw [if_neg (by simp)] at hloop
          simp only [List.length_singleton] at hloop
          -- descend into the placeholder and clear its children
          rcases hset : setChildren t1 (p ++ [1 - 1]) [] with _ | t2
          · rw [hset] at hloop; cases hloop
          · rw [hset] at hloop
            simp only at hloop
            have hget1' : getN t1 (p ++ [0]) = some phEntry := by
              rw [getN_append, hget1]
              simp [getN, phEntry, JTree.children?]
            have hlast1' : LastsTo t1 (p ++ [0]) :=
              LastsTo_extend p t1 _ [phEntry] 0 phEntry hlast1 hget1 rfl (by simp) (by simp)
            have hset' : setChildren t1 (p ++ [0]) [] = some t2 := by simpa using hset
            have hf2 : (fun n => some (JTree.node n.title n.href (some []))) phEntry =
                some (JTree.node none none (some [])) := rfl
            have hget2 : getN t2 (p ++ [0]) = some (JTree.node none none (some [])) :=
              getN_modify _ (p ++ [0]) t1 t2 _ _ hset' hget1' hf2
            have hlast2 : LastsTo t2 (p ++ [0]) :=
              LastsTo_modify _ (p ++ [0]) t1 t2 hlast1' hset'
            obtain ⟨front2, hfr3, hfr4⟩ :=
              modify_dfs _ (p ++ [0]) t1 _ _ t2 d hlast1' hget1' hf2 hset'
            have hloop' : lenientLoop t2 (p ++ [0]) m = some (t', p') := by
              simpa using hloop
            obtain ⟨hA, hB, hC, pads', hD, hE⟩ :=
              ih t2 (p ++ [0]) t' p' hlast2
                ⟨_, [], hget2, rfl, by intro c hc; simp at hc⟩ hloop'
            refine ⟨hA, by simp at hB ⊢; omega, hC, ?_⟩
            refine ⟨(d + p.length + 1, none) :: pads', ?_, ?_⟩
            · rw [hD]
              rw [show dfsEntry d t2 = dfsEntry d t1 from by
                    rw [hfr3, hfr4]
                    simp [dfsEntry, dfsChildren, phEntry]]
              rw [hfr2, hfr1]
              simp [dfsEntry, dfsChildren, phEntry]
            · intro x hx
              rw [List.mem_cons] at hx
              rcases hx with hx | hx
              · simp [hx]
              · exact hE x hx
    · -- nonempty children: descend into the existing last child
      rw [if_neg hz] at hloop
      simp only at hloop
      rw [hget] at hloop
      simp only at hloop
      rw [hcs] at hloop
      simp only at hloop
      rw [if_neg hz] at hloop
      have hlt : cs.length - 1 < cs.length := by omega
      obtain ⟨c, hgc⟩ : ∃ cl, cs[cs.length - 1]? = some cl :=
        ⟨_, List.getElem?_eq_getElem hlt⟩
      have hgl : cs.getLast? = some c := by
        rw [List.getLast?_eq_getElem?]
        exact hgc
      have hckids : JTree.children? c = none := hlastkid c hgl
      have hlastp1 : LastsTo t (p ++ [cs.length - 1]) :=
        LastsTo_extend p t n cs (cs.length - 1) c hlast hget hcs (by omega) hgc
      have hgetp1 : getN t (p ++ [cs.length - 1]) = some c := by
        rw [getN_append, hget]
        simp only
        cases n with
        | node a b cso =>
          simp [JTree.children?] at hcs
          subst hcs
          rw [getN_cons, hgc]
          simp [getN]
      rcases hset : setChildren t (p ++ [cs.length - 1]) [] with _ | t2
      · rw [hset] at hloop; cases hloop
      · rw [hset] at hloop
        simp only at hloop
        have hf2 : (fun n => some (JTree.node n.title n.href (some []))) c =
            some (JTree.node c.title c.href (some [])) := rfl
        have hget2 : getN t2 (p ++ [cs.length - 1]) =
            some (JTree.node c.title c.href (some [])) :=
          getN_modify _ _ t t2 _ _ hset hgetp1 hf2
        have hlast2 : LastsTo t2 (p ++ [cs.length - 1]) :=
          LastsTo_modify _ _ t t2 hlastp1 hset
        obtain ⟨front2, hfr3, hfr4⟩ :=
          modify_dfs _ (p ++ [cs.length - 1]) t _ _ t2 d hlastp1 hgetp1 hf2 hset
        obtain ⟨hA, hB, hC, pads', hD, hE⟩ :=
          ih t2 (p ++ [cs.length - 1]) t' p' hlast2
            ⟨_, [], hget2, rfl, by intro x hx; simp at hx⟩ hloop
        refine ⟨hA, by simp at hB ⊢; omega, hC, pads', ?_, hE⟩
        rw [hD]
        have hdfseq : dfsEntry d t2 = dfsEntry d t := by
          rw [hfr4, hfr3]
          cases c with
          | node tc hc cso =>
            cases cso with
            | none => simp [dfsEntry, dfsChildren, JTree.title, JTree.href]
            | some l => simp [JTree.children?] at hckids
        rw [hdfseq]

/-- Pushing a childless node at a last-children path appends exactly one
entry at the end of the depth-first order. -/
theorem push_dfs (t t' : JTree) (p : List Nat) (x : JTree) (d : Nat)
    (hlast : LastsTo t p) (hx : JTree.children? x = none)
    (hpush : pushChild t p x = some t') :
    dfsEntry d t' = dfsEntry d t ++ [(d + p.length + 1, JTree.title x)] := by
  obtain ⟨n, n', hg, hf⟩ := modifyN_extract _ p t t' hpush
  cases n with
  | node a b cso =>
    cases cso with
    | none => simp only at hf; cases hf
    | some cs =>
      simp only at hf
      obtain ⟨front, h1, h2⟩ := modify_dfs _ p t _ _ t' d hlast hg hf hpush
      have hn' : n' = JTree.node a b (some (cs ++ [x])) := by simpa using hf.symm
      subst hn'
      rw [h2, h1]
      cases x with
      | node xt xh xco =>
        simp [JTree.children?] at hx
        subst hx
        simp [dfsEntry, dfsChildren_append, dfsChildren, JTree.title, List.append_assoc]

theorem push_post (t t' : JTree) (p : List Nat) (x : JTree)
    (hlast : LastsTo t p) (hx : JTree.children? x = none)
    (hpush : pushChild t p x = some t') :
    LastsTo t' p ∧
    ∃ n' cs', getN t' p = some n' ∧ JTree.children? n' = some cs' ∧
      (∀ c, cs'.getLast? = some c → JTree.children? c = none) := by
  obtain ⟨n, n', hg, hf⟩ := modifyN_extract _ p t t' hpush
  cases n with
  | node a b cso =>
    cases cso with
    | none => simp only at hf; cases hf
    | some cs =>
      simp only at hf
      have hn' : n' = JTree.node a b (some (cs ++ [x])) := by simpa using hf.symm
      subst hn'
      refine ⟨LastsTo_modify _ p t t' hlast hpush,
        _, cs ++ [x], getN_modify _ p t t' _ _ hpush hg hf, rfl, ?_⟩
      intro c hc
      rw [List.getLast?_concat] at hc
      have hcx : x = c := by injection hc
      subst hcx
      exact hx

theorem set_empty_dfs (t t' : JTree) (p : List Nat) (c : JTree) (d : Nat)
    (hlast : LastsTo t p) (hget : getN t p = some c) (hc : JTree.children? c = none)
    (hset : setChildren t p [] = some t') :
    dfsEntry d t' = dfsEntry d t := by
  have hf : (fun n => some (JTree.node (JTree.title n) (JTree.href n) (some []))) c =
      some (JTree.node (JTree.title c) (JTree.href c) (some [])) := rfl
  obtain ⟨front, h1, h2⟩ := modify_dfs _ p t _ _ t' d hlast hget hf hset
  rw [h2, h1]
  cases c with
  | node tc hc' cso =>
    cases cso with
    | none => simp [dfsEntry, dfsChildren, JTree.title, JTree.href]
    | some l => simp [JTree.children?] at hc

/-- The per-heading transition policy of buildToC_json: a heading beyond the
depth changes nothing; an in-range heading with a level at most one above
currentLevel is appended as the final entry of the depth-first order at
depth level; a non-contiguous heading emits the diagnostic and is either
dropped whole (strict) or appended after a run of synthesized titleless
placeholders (lenient).  The state invariant is preserved throughout. -/
theorem tbStep_spec (depth : Nat) (strict : Bool) (st : TB) (h : Heading)
    (ds : List String) (st' : TB) (hInv : TBInv st)
    (hstep : tbStep depth strict st h = (ds, some st')) :
    TBInv st' ∧
    ((depth ≤ h.level ∧ st' = st ∧ ds = []) ∨
     (h.level < depth ∧ h.level ≤ st.currentLevel + 1 ∧ ds = [] ∧
        st'.currentLevel = h.level ∧
        (∀ d, dfsEntry d st'.toc = dfsEntry d st.toc ++ [(d + h.level + 1, some h.title)])) ∨
     (h.level < depth ∧ st.currentLevel + 1 < h.level ∧ ds = [jumpMsg h] ∧
        ((strict = true ∧ st' = st) ∨
         (strict = false ∧ st'.currentLevel = h.level ∧
           ∀ d, ∃ pads, dfsEntry d st'.toc = dfsEntry d st.toc ++ pads ++
               [(d + h.level + 1, some h.title)] ∧
             ∀ x ∈ pads, Prod.snd x = (none : Option String))))) := by
  obtain ⟨hlastInv, hlenInv, n, cs, hgetInv, hcsInv, hkidInv⟩ := hInv
  unfold tbStep at hstep
  by_cases hdep : h.level < depth
  · rw [if_pos hdep] at hstep
    by_cases hlt : h.level < st.currentLevel
    · -- ascend: re-derive the insertion point from the root
      rw [if_pos hlt] at hstep
      rw [Prod.mk.injEq] at hstep
      obtain ⟨hds, hsnd⟩ := hstep
      rcases hdl : descendLast st.toc h.level [] with _ | p
      · rw [hdl] at hsnd; cases hsnd
      · rw [hdl] at hsnd
        simp only at hsnd
        rcases hpc : pushChild st.toc p (mkEntry h) with _ | toc'
        · rw [hpc] at hsnd; cases hsnd
        · rw [hpc] at hsnd
          simp only at hsnd
          have hst' : st' = ⟨toc', p, h.level⟩ := by
            cases hsnd; rfl
          subst hst'
          obtain ⟨hlp, hplen⟩ := descendLast_spec st.toc h.level [] p (LastsTo.nil _) hdl
          simp at hplen
          obtain ⟨hlp', n', cs', hg', hc', hk'⟩ :=
            push_post st.toc toc' p (mkEntry h) hlp rfl hpc
          refine ⟨⟨hlp', by simpa using hplen, n', cs', hg', hc', hk'⟩,
            Or.inr (Or.inl ⟨hdep, by omega, hds.symm, rfl, ?_⟩)⟩
          intro d
          have := push_dfs st.toc toc' p (mkEntry h) d hlp rfl hpc
          simpa [mkEntry, JTree.title, hplen] using this
    · rw [if_neg hlt] at hstep
      by_cases heq : h.level = st.currentLevel + 1
      · -- descend one: into the last entry pushed at currentLevel
        rw [if_pos heq] at hstep
        rw [Prod.mk.injEq] at hstep
        obtain ⟨hds, hsnd⟩ := hstep
        rcases hlc : lastChildPath st.toc st.cur with _ | p
        · rw [hlc] at hsnd; cases hsnd
        · rw [hlc] at hsnd
          simp only at hsnd
          rcases hsc : setChildren st.toc p [] with _ | t1
          · rw [hsc] at hsnd; cases hsnd
          · rw [hsc] at hsnd
            simp only at hsnd
            rcases hpc : pushChild t1 p (mkEntry h) with _ | t2
            · rw [hpc] at hsnd; cases hsnd
            · rw [hpc] at hsnd
              simp only at hsnd
              have hst' : st' = ⟨t2, p, h.level⟩ := by cases hsnd; rfl
              subst hst'
              -- dissect the lastChildPath computation
              unfold lastChildPath at hlc
              rw [hgetInv] at hlc
              simp only at hlc
              rw [hcsInv] at hlc
              simp only at hlc
              by_cases hz : cs.length = 0
              · simp [hz] at hlc
              · simp [hz] at hlc
                obtain ⟨c, hgc⟩ : ∃ cl, cs[cs.length - 1]? = some cl :=
                  ⟨_, List.getElem?_eq_getElem (by omega)⟩
                have hgl : cs.getLast? = some c := by
                  rw [List.getLast?_eq_getElem?]; exact hgc
                have hckid : JTree.children? c = none := hkidInv c hgl
                have hlastp : LastsTo st.toc (st.cur ++ [cs.length - 1]) :=
                  LastsTo_extend st.cur st.toc n cs (cs.length - 1) c hlastInv hgetInv
                    hcsInv (by omega) hgc
                have hgetp : getN st.toc (st.cur ++ [cs.length - 1]) = some c := by
                  rw [getN_append, hgetInv]
                  simp only
                  cases n with
                  | node a b cso =>
                    simp [JTree.children?] at hcsInv
                    subst hcsInv
                    rw [getN_cons, hgc]
                    simp [getN]
                subst hlc
                have hsetdfs : ∀ d, dfsEntry d t1 = dfsEntry d st.toc := fun d =>
                  set_empty_dfs st.toc t1 _ c d hlastp hgetp hckid hsc
                have hlast1 : LastsTo t1 (st.cur ++ [cs.length - 1]) :=
                  LastsTo_modify _ _ st.toc t1 hlastp hsc
                obtain ⟨hlp', n', cs', hg', hc', hk'⟩ :=
                  push_post t1 t2 _ (mkEntry h) hlast1 rfl hpc
                refine ⟨⟨hlp', by simp; omega, n', cs', hg', hc', hk'⟩,
                  Or.inr (Or.inl ⟨hdep, by omega, hds.symm, rfl, ?_⟩)⟩
                intro d
                have hp := push_dfs t1 t2 _ (mkEntry h) d hlast1 rfl hpc
                rw [hp, hsetdfs d]
                simp [mkEntry, JTree.title]
                omega
      · rw [if_neg heq] at hstep
        by_cases hjump : st.currentLevel + 1 < h.level
        · -- non-contiguous jump
          rw [if_pos hjump] at hstep
          rw [Prod.mk.injEq] at hstep
          obtain ⟨hds, hsnd⟩ := hstep
          cases hstrict : strict with
          | true =>
            rw [hstrict] at hsnd
            simp only [if_pos] at hsnd
            have hst' : st' = st := by cases hsnd; rfl
            subst hst'
            exact ⟨⟨hlastInv, hlenInv, n, cs, hgetInv, hcsInv, hkidInv⟩,
              Or.inr (Or.inr ⟨hdep, hjump, hds.symm, Or.inl ⟨rfl, rfl⟩⟩)⟩
          | false =>
            rw [hstrict] at hsnd
            simp only [if_neg, Bool.false_eq_true, not_false_iff] at hsnd
            rcases hll : lenientLoop st.toc st.cur (h.level - st.currentLevel) with _ | tp
            · rw [hll] at hsnd; cases hsnd
            · rw [hll] at hsnd
              simp only at hsnd
              obtain ⟨t1, p1⟩ := tp
              rcases hpc : pushChild t1 p1 (mkEntry h) with _ | t2
              · rw [hpc] at hsnd; cases hsnd
              · rw [hpc] at hsnd
                simp only at hsnd
                have hst' : st' = ⟨t2, p1, h.level⟩ := by cases hsnd; rfl
                subst hst'
                have hloopInv := fun d =>
                  lenientLoop_spec d (h.level - st.currentLevel) st.toc st.cur t1 p1
                    hlastInv ⟨n, cs, hgetInv, hcsInv, hkidInv⟩ hll
                obtain ⟨hlast1, hp1len, hmid, _⟩ := hloopInv 0
                obtain ⟨n1, cs1, hg1, hc1, hk1⟩ := hmid
                obtain ⟨hlp', n', cs', hg', hc', hk'⟩ :=
                  push_post t1 t2 p1 (mkEntry h) hlast1 rfl hpc
                refine ⟨⟨hlp', by show p1.length = h.level; omega, n', cs', hg', hc', hk'⟩,
                  Or.inr (Or.inr ⟨hdep, hjump, hds.symm,
                    Or.inr ⟨rfl, rfl, ?_⟩⟩)⟩
                intro d
                obtain ⟨_, _, _, pads, hdfs1, hpads⟩ := hloopInv d
                refine ⟨pads, ?_, hpads⟩
                have hp := push_dfs t1 t2 p1 (mkEntry h) d hlast1 rfl hpc
                rw [hp, hdfs1]
                have : p1.length = h.level := by omega
                simp [mkEntry, JTree.title, this, List.append_assoc]
        · -- same level: append as a sibling at the current insertion point
          rw [if_neg hjump] at hstep
          rw [Prod.mk.injEq] at hstep
          obtain ⟨hds, hsnd⟩ := hstep
          have heql : h.level = st.currentLevel := by omega
          rcases hpc : pushChild st.toc st.cur (mkEntry h) with _ | toc'
          · rw [hpc] at hsnd; cases hsnd
          · rw [hpc] at hsnd
            simp only at hsnd
            have hst' : st' = ⟨toc', st.cur, h.level⟩ := by cases hsnd; rfl
            subst hst'
            obtain ⟨hlp', n', cs', hg', hc', hk'⟩ :=
              push_post st.toc toc' st.cur (mkEntry h) hlastInv rfl hpc
            refine ⟨⟨hlp', by simp [hlenInv, heql], n', cs', hg', hc', hk'⟩,
              Or.inr (Or.inl ⟨hdep, by omega, hds.symm, rfl, ?_⟩)⟩
            intro d
            have hp := push_dfs st.toc toc' st.cur (mkEntry h) d hlastInv rfl hpc
            rw [hp]
            simp [mkEntry, JTree.title, hlenInv, heql]
  · rw [if_neg hdep] at hstep
    rw [Prod.mk.injEq] at hstep
    obtain ⟨hds, hsnd⟩ := hstep
    have hst' : st' = st := by cases hsnd; rfl
    subst hst'
    exact ⟨⟨hlastInv, hlenInv, n, cs, hgetInv, hcsInv, hkidInv⟩,
      Or.inl ⟨by omega, rfl, hds.symm⟩⟩

theorem tbRun_none (depth : Nat) (strict : Bool) (ds : List String) :
    ∀ hs : List Heading, tbRun depth strict (ds, none) hs = (ds, none)
  | [] => rfl
  | _ :: _ => rfl

theorem tbRun_append (depth : Nat) (strict : Bool) :
    ∀ (l1 l2 : List Heading) (acc : List String × Option TB),
      tbRun depth strict acc (l1 ++ l2) =
        tbRun depth strict (tbRun depth strict acc l1) l2 := by
  intro l1
  induction l1 with
  | nil =>
    intro l2 acc
    obtain ⟨ds, sto⟩ := acc
    cases sto with
    | none => rfl
    | some st => rfl
  | cons h hs ih =>
    intro l2 acc
    obtain ⟨ds, sto⟩ := acc
    cases sto with
    | none => rw [tbRun_none, tbRun_none, tbRun_none]
    | some st =>
      show tbRun depth strict (ds ++ (tbStep depth strict st h).1,
        (tbStep depth strict st h).2) (hs ++ l2) = _
      rw [ih]
      rfl

theorem foldl_tbRun (depth : Nat) (strict : Bool) :
    ∀ (pages : List Page) (acc : List String × Option TB),
      pages.foldl (fun acc page => tbRun depth strict acc page.headings) acc =
        tbRun depth strict acc (flatHeadings pages) := by
  intro pages
  induction pages with
  | nil =>
    intro acc
    obtain ⟨ds, sto⟩ := acc
    cases sto with
    | none => rfl
    | some st => rfl
  | cons page rest ih =>
    intro acc
    rw [List.foldl_cons, ih]
    rw [show flatHeadings (page :: rest) = page.headings ++ flatHeadings rest from by
      simp [flatHeadings]]
    rw [tbRun_append]

/-- The diagnostic output of one step: exactly the non-contiguity message,
exactly when the non-contiguous branch runs. -/
theorem tbStep_diag (depth : Nat) (strict : Bool) (st : TB) (h : Heading) :
    (tbStep depth strict st h).1 =
      if h.level < depth ∧ st.currentLevel + 1 < h.level then [jumpMsg h] else [] := by
  unfold tbStep
  by_cases hdep : h.level < depth
  · rw [if_pos hdep]
    by_cases hlt : h.level < st.currentLevel
    · rw [if_pos hlt, if_neg (by omega)]
    · rw [if_neg hlt]
      by_cases heq : h.level = st.currentLevel + 1
      · rw [if_pos heq, if_neg (by omega)]
      · rw [if_neg heq]
        by_cases hj : st.currentLevel + 1 < h.level
        · rw [if_pos hj,
            if_pos (show h.level < depth ∧ st.currentLevel + 1 < h.level from ⟨hdep, hj⟩)]
        · rw [if_neg hj, if_neg (by omega)]
  · rw [if_neg hdep, if_neg (by omega)]

/-- Outside the non-contiguous branch the step does not read the strict
flag. -/
theorem tbStep_strict_irrel (depth : Nat) (s1 s2 : Bool) (st : TB) (h : Heading)
    (hnj : ¬(h.level < depth ∧ st.currentLevel + 1 < h.level)) :
    tbStep depth s1 st h = tbStep depth s2 st h := by
  unfold tbStep
  by_cases hdep : h.level < depth
  · rw [if_pos hdep, if_pos hdep]
    by_cases hlt : h.level < st.currentLevel
    · rw [if_pos hlt, if_pos hlt]
    · rw [if_neg hlt, if_neg hlt]
      by_cases heq : h.level = st.currentLevel + 1
      · rw [if_pos heq, if_pos heq]
      · rw [if_neg heq, if_neg heq]
        by_cases hj : st.currentLevel + 1 < h.level
        · exact absurd ⟨hdep, hj⟩ hnj
        · rw [if_neg hj, if_neg hj]
  · rw [if_neg hdep, if_neg hdep]

/-- The root toc object: no title, no href, a children array. -/
def rootish (t : JTree) : Prop :=
  ∃ rcs, t = JTree.node none none (some rcs)

theorem modifyN_keeps_root (f : JTree → Option JTree)
    (hf : ∀ n n', f n = some n' →
      JTree.title n' = JTree.title n ∧ JTree.href n' = JTree.href n ∧
      (JTree.children? n').isSome = true) :
    ∀ (p : List Nat) (t t' : JTree), rootish t → modifyN f t p = some t' →
      rootish t' := by
  intro p t t' hr hmod
  obtain ⟨rcs, rfl⟩ := hr
  cases p with
  | nil =>
    rw [modifyN_nil] at hmod
    obtain ⟨h1, h2, h3⟩ := hf _ _ hmod
    cases t' with
    | node a b cso =>
      simp [JTree.title] at h1
      simp [JTree.href] at h2
      simp [JTree.children?] at h3
      obtain ⟨l, rfl⟩ := Option.isSome_iff_exists.mp h3
      subst h1
      subst h2
      exact ⟨l, rfl⟩
  | cons i q =>
    rw [modifyN_cons] at hmod
    rcases hgc : rcs[i]? with _ | c
    · rw [hgc] at hmod; cases hmod
    · rw [hgc] at hmod
      simp only at hmod
      rcases hmc : modifyN f c q with _ | c'
      · rw [hmc] at hmod; cases hmod
      · rw [hmc] at hmod
        simp at hmod
        exact ⟨rcs.set i c', hmod.symm⟩

theorem pushChild_keeps_root (t t' : JTree) (p : List Nat) (x : JTree)
    (hr : rootish t) (hpush : pushChild t p x = some t') : rootish t' := by
  refine modifyN_keeps_root _ ?_ p t t' hr hpush
  intro n n' hf
  cases n with
  | node a b cso =>
    cases cso with
    | none => simp only at hf; cases hf
    | some cs =>
      simp only at hf
      have : n' = JTree.node a b (some (cs ++ [x])) := by simpa using hf.symm
      subst this
      simp [JTree.title, JTree.href, JTree.children?]

theorem setChildren_keeps_root (t t' : JTree) (p : List Nat) (cs : List JTree)
    (hr : rootish t) (hset : setChildren t p cs = some t') : rootish t' := by
  refine modifyN_keeps_root _ ?_ p t t' hr hset
  intro n n' hf
  simp at hf
  subst hf
  cases n with
  | node a b cso => simp [JTree.title, JTree.href, JTree.children?]

theorem lenientLoop_keeps_root :
    ∀ (k : Nat) (t : JTree) (p : List Nat) (t' : JTree) (p' : List Nat),
      rootish t → lenientLoop t p k = some (t', p') → rootish t' := by
  intro k
  induction k with
  | zero =>
    intro t p t' p' hr hloop
    simp [lenientLoop] at hloop
    obtain ⟨rfl, rfl⟩ := hloop
    exact hr
  | succ m ih =>
    intro t p t' p' hr hloop
    rw [lenientLoop_succ] at hloop
    rcases hg : getN t p with _ | n
    · rw [hg] at hloop; cases hloop
    · rw [hg] at hloop
      simp only at hloop
      rcases hcs : JTree.children? n with _ | cs
      · rw [hcs] at hloop; cases hloop
      · rw [hcs] at hloop
        simp only at hloop
        rcases hpp : (if cs.length = 0 then pushChild t p phEntry else some t) with _ | t1
        · rw [hpp] at hloop; cases hloop
        · rw [hpp] at hloop
          simp only at hloop
          have hr1 : rootish t1 := by
            by_cases hz : cs.length = 0
            · rw [if_pos hz] at hpp
              exact pushChild_keeps_root t t1 p phEntry hr hpp
            · rw [if_neg hz] at hpp
              cases hpp; exact hr
          rcases hg1 : getN t1 p with _ | n1
          · rw [hg1] at hloop; cases hloop
          · rw [hg1] at hloop
            simp only at hloop
            rcases hcs1 : JTree.children? n1 with _ | cs1
            · rw [hcs1] at hloop; cases hloop
            · rw [hcs1] at hloop
              simp only at hloop
              by_cases hz1 : cs1.length = 0
              · rw [if_pos hz1] at hloop; cases hloop
              · rw [if_neg hz1] at hloop
                rcases hst : setChildren t1 (p ++ [cs1.length - 1]) [] with _ | t2
                · rw [hst] at hloop; cases hloop
                · rw [hst] at hloop
                  simp only at hloop
                  exact ih t2 _ t' p' (setChildren_keeps_root t1 t2 _ [] hr1 hst) hloop

theorem tbStep_keeps_root (depth : Nat) (strict : Bool) (st : TB) (h : Heading)
    (ds : List String) (st' : TB) (hr : rootish st.toc)
    (hstep : tbStep depth strict st h = (ds, some st')) : rootish st'.toc := by
  unfold tbStep at hstep
  by_cases hdep : h.level < depth
  · rw [if_pos hdep] at hstep
    by_cases hlt : h.level < st.currentLevel
    · rw [if_pos hlt] at hstep
      rw [Prod.mk.injEq] at hstep
      obtain ⟨_, hsnd⟩ := hstep
      rcases hdl : descendLast st.toc h.level [] with _ | p
      · rw [hdl] at hsnd; cases hsnd
      · rw [hdl] at hsnd
        simp only at hsnd
        rcases hpc : pushChild st.toc p (mkEntry h) with _ | toc'
        · rw [hpc] at hsnd; cases hsnd
        · rw [hpc] at hsnd
          have : st' = ⟨toc', p, h.level⟩ := by cases hsnd; rfl
          subst this
          exact pushChild_keeps_root st.toc toc' p (mkEntry h) hr hpc
    · rw [if_neg hlt] at hstep
      by_cases heq : h.level = st.currentLevel + 1
      · rw [if_pos heq] at hstep
        rw [Prod.mk.injEq] at hstep
        obtain ⟨_, hsnd⟩ := hstep
        rcases hlc : lastChildPath st.toc st.cur with _ | p
        · rw [hlc] at hsnd; cases hsnd
        · rw [hlc] at hsnd
          simp only at hsnd
          rcases hsc : setChildren st.toc p [] with _ | t1
          · rw [hsc] at hsnd; cases hsnd
          · rw [hsc] at hsnd
            simp only at hsnd
            rcases hpc : pushChild t1 p (mkEntry h) with _ | t2
            · rw [hpc] at hsnd; cases hsnd
            · rw [hpc] at hsnd
              have : st' = ⟨t2, p, h.level⟩ := by cases hsnd; rfl
              subst this
              exact pushChild_keeps_root t1 t2 p (mkEntry h)
                (setChildren_keeps_root st.toc t1 p [] hr hsc) hpc
      · rw [if_neg heq] at hstep
        by_cases hj : st.currentLevel + 1 < h.level
        · rw [if_pos hj] at hstep
          rw [Prod.mk.injEq] at hstep
          obtain ⟨_, hsnd⟩ := hstep
          cases strict with
          | true =>
            simp only [if_pos] at hsnd
            have : st' = st := by cases hsnd; rfl
            subst this
            exact hr
          | false =>
            simp only [Bool.false_eq_true, if_false] at hsnd
            rcases hll : lenientLoop st.toc st.cur (h.level - st.currentLevel) with _ | tp
            · rw [hll] at hsnd; cases hsnd
            · rw [hll] at hsnd
              simp only at hsnd
              obtain ⟨t1, p1⟩ := tp
              rcases hpc : pushChild t1 p1 (mkEntry h) with _ | t2
              · rw [hpc] at hsnd; cases hsnd
              · rw [hpc] at hsnd
                have : st' = ⟨t2, p1, h.level⟩ := by cases hsnd; rfl
                subst this
                exact pushChild_keeps_root t1 t2 p1 (mkEntry h)
                  (lenientLoop_keeps_root _ st.toc st.cur t1 p1 hr hll) hpc
        · rw [if_neg hj] at hstep
          rw [Prod.mk.injEq] at hstep
          obtain ⟨_, hsnd⟩ := hstep
          rcases hpc : pushChild st.toc st.cur (mkEntry h) with _ | toc'
          · rw [hpc] at hsnd; cases hsnd
          · rw [hpc] at hsnd
            have : st' = ⟨toc', st.cur, h.level⟩ := by cases hsnd; rfl
            subst this
            exact pushChild_keeps_root st.toc toc' st.cur (mkEntry h) hr hpc
  · rw [if_neg hdep] at hstep
    rw [Prod.mk.injEq] at hstep
    obtain ⟨_, hsnd⟩ := hstep
    have : st' = st := by cases hsnd; rfl
    subst this
    exact hr

theorem tbRun_keeps_root (depth : Nat) (strict : Bool) :
    ∀ (hs : List Heading) (ds0 : List String) (st : TB) (ds' : List String) (st' : TB),
      rootish st.toc → tbRun depth strict (ds0, some st) hs = (ds', some st') →
      rootish st'.toc := by
  intro hs
  induction hs with
  | nil =>
    intro ds0 st ds' st' hr hrun
    simp [tbRun] at hrun
    obtain ⟨_, rfl⟩ := hrun
    exact hr
  | cons h rest ih =>
    intro ds0 st ds' st' hr hrun
    rw [show tbRun depth strict (ds0, some st) (h :: rest) =
      tbRun depth strict (ds0 ++ (tbStep depth strict st h).1,
        (tbStep depth strict st h).2) rest from rfl] at hrun
    rcases hstep : (tbStep depth strict st h).2 with _ | st1
    · rw [hstep] at hrun
      rw [tbRun_none] at hrun
      cases hrun
    · rw [hstep] at hrun
      exact ih _ st1 ds' st'
        (tbStep_keeps_root depth strict st h _ st1 hr
          (by rw [← hstep]))
        hrun

mutual

theorem dfsEntry_shift : ∀ (t : JTree) (k d : Nat),
    dfsEntry (d + k) t = (dfsEntry d t).map (fun x => (x.1 + k, x.2))
  | .node a b none, k, d => by simp [dfsEntry]
  | .node a b (some cs), k, d => by
    have := dfsChildren_shift cs k (d + 1)
    simp [dfsEntry]
    rw [show d + k + 1 = d + 1 + k from by omega, this]

theorem dfsChildren_shift : ∀ (cs : List JTree) (k d : Nat),
    dfsChildren (d + k) cs = (dfsChildren d cs).map (fun x => (x.1 + k, x.2))
  | [], k, d => by simp [dfsChildren]
  | c :: cs, k, d => by
    simp [dfsChildren, dfsEntry_shift c k d, dfsChildren_shift cs k d]

end

theorem filterMap_titles_cons (depth : Nat) (h : Heading) (rest : List Heading)
    (hlt : h.level < depth) :
    (h :: rest).filterMap (fun x => if x.level < depth then some x.title else none) =
      h.title :: rest.filterMap (fun x => if x.level < depth then some x.title else none) := by
  simp [List.filterMap_cons, hlt]

theorem filterMap_titles_skip (depth : Nat) (h : Heading) (rest : List Heading)
    (hge : ¬ h.level < depth) :
    (h :: rest).filterMap (fun x => if x.level < depth then some x.title else none) =
      rest.filterMap (fun x => if x.level < depth then some x.title else none) := by
  simp [List.filterMap_cons, hge]

theorem filterMap_snd_cons_some (q : Nat) (s : String) (tail : List (Nat × Option String)) :
    ((q, some s) :: tail).filterMap Prod.snd = s :: tail.filterMap Prod.snd := by
  simp

/-- Order preservation along a whole run: the run only ever appends at the
end of the depth-first order; the titles appended are a sublist of the
in-range titles (dropping happens only in strict mode, in the jump branch),
and in lenient mode exactly the in-range titles. -/
theorem tbRun_order (depth : Nat) (strict : Bool) :
    ∀ (hs : List Heading) (ds0 : List String) (st : TB) (ds' : List String) (st' : TB),
      TBInv st →
      tbRun depth strict (ds0, some st) hs = (ds', some st') →
      TBInv st' ∧
      ∀ d, ∃ tail, dfsEntry d st'.toc = dfsEntry d st.toc ++ tail ∧
        (tail.filterMap Prod.snd).Sublist
          (hs.filterMap (fun h => if h.level < depth then some h.title else none)) ∧
        (strict = false →
          tail.filterMap Prod.snd =
            hs.filterMap (fun h => if h.level < depth then some h.title else none)) := by
  intro hs
  induction hs with
  | nil =>
    intro ds0 st ds' st' hInv hrun
    simp [tbRun] at hrun
    obtain ⟨h1, h2⟩ := hrun
    subst h2
    exact ⟨hInv, fun d => ⟨[], by simp, by simp, by simp⟩⟩
  | cons h rest ih =>
    intro ds0 st ds' st' hInv hrun
    rw [show tbRun depth strict (ds0, some st) (h :: rest) =
      tbRun depth strict (ds0 ++ (tbStep depth strict st h).1,
        (tbStep depth strict st h).2) rest from rfl] at hrun
    rcases hs2 : (tbStep depth strict st h).2 with _ | st1
    · rw [hs2] at hrun
      rw [tbRun_none] at hrun
      cases hrun
    · rw [hs2] at hrun
      have hstep : tbStep depth strict st h = ((tbStep depth strict st h).1, some st1) := by
        rw [← hs2]
      obtain ⟨hInv1, hbr⟩ := tbStep_spec depth strict st h _ st1 hInv hstep
      obtain ⟨hInv', htail⟩ := ih _ st1 ds' st' hInv1 hrun
      refine ⟨hInv', ?_⟩
      intro d
      obtain ⟨tail, ht1, ht2, ht3⟩ := htail d
      rcases hbr with ⟨hge, hst1, _⟩ | ⟨hlt, _, _, _, hdfs⟩ | ⟨hlt, hj, _, hcase⟩
      · -- out of range: nothing placed, nothing filtered
        subst hst1
        refine ⟨tail, ht1, ?_, ?_⟩
        · rw [filterMap_titles_skip depth h rest (by omega)]
          exact ht2
        · intro hstrict
          rw [filterMap_titles_skip depth h rest (by omega)]
          exact ht3 hstrict
      · -- in range, no jump: the heading is appended at the end
        refine ⟨(d + h.level + 1, some h.title) :: tail, ?_, ?_, ?_⟩
        · rw [ht1, hdfs d]
          simp
        · rw [filterMap_titles_cons depth h rest hlt,
            filterMap_snd_cons_some (d + h.level + 1) h.title tail]
          exact List.Sublist.cons₂ h.title ht2
        · intro hstrict
          rw [filterMap_titles_cons depth h rest hlt,
            filterMap_snd_cons_some (d + h.level + 1) h.title tail]
          rw [ht3 hstrict]
      · rcases hcase with ⟨hstrue, hst1⟩ | ⟨hsfalse, _, hdfs⟩
        · -- strict: the heading is dropped whole
          subst hst1
          refine ⟨tail, ht1, ?_, ?_⟩
          · rw [filterMap_titles_cons depth h rest hlt]
            exact List.Sublist.cons h.title ht2
          · intro hstrict
            rw [hstrict] at hstrue
            cases hstrue
        · -- lenient: placeholders then the heading, appended at the end
          obtain ⟨pads, hp1, hp2⟩ := hdfs d
          refine ⟨pads ++ [(d + h.level + 1, some h.title)] ++ tail, ?_, ?_, ?_⟩
          · rw [ht1, hp1]
            simp [List.append_assoc]
          · rw [filterMap_titles_cons depth h rest hlt]
            rw [List.filterMap_append, List.filterMap_append]
            rw [show pads.filterMap Prod.snd = [] from
              List.filterMap_eq_nil.mpr hp2]
            rw [show ([(d + h.level + 1, some h.title)] : List (Nat × Option String)).filterMap
              Prod.snd = [h.title] from by simp]
            exact List.Sublist.cons₂ h.title ht2
          · intro hstrict
            rw [filterMap_titles_cons depth h rest hlt]
            rw [List.filterMap_append, List.filterMap_append]
            rw [show pads.filterMap Prod.snd = [] from
              List.filterMap_eq_nil.mpr hp2]
            rw [show ([(d + h.level + 1, some h.title)] : List (Nat × Option String)).filterMap
              Prod.snd = [h.title] from by simp]
            rw [ht3 hstrict]
            rfl

theorem filterMap_pairs_skip (depth d : Nat) (h : Heading) (rest : List Heading)
    (hge : ¬ h.level < depth) :
    (h :: rest).filterMap (fun x => if x.level < depth then
        some (d + x.level + 1, some x.title) else none) =
      rest.filterMap (fun x => if x.level < depth then
        some (d + x.level + 1, some x.title) else none) := by
  simp [List.filterMap_cons, hge]

theorem filterMap_pairs_cons (depth d : Nat) (h : Heading) (rest : List Heading)
    (hlt : h.level < depth) :
    (h :: rest).filterMap (fun x => if x.level < depth then
        some (d + x.level + 1, some x.title) else none) =
      (d + h.level + 1, some h.title) :: rest.filterMap (fun x => if x.level < depth then
        some (d + x.level + 1, some x.title) else none) := by
  simp [List.filterMap_cons, hlt]

theorem stepsLE1_tail (a : Nat) (rest : List Nat) (h : stepsLE1 (a :: rest) = true) :
    stepsLE1 rest = true := by
  cases rest with
  | nil => rfl
  | cons b r =>
    simp [stepsLE1] at h
    simp [h.2]

theorem stepsLE1_head2 (a b : Nat) (r : List Nat) (h : stepsLE1 (a :: b :: r) = true) :
    a ≤ b ∧ b ≤ a + 1 := by
  simp [stepsLE1] at h
  exact h.1

/-- Under a level stream that never skips (each level at most one above the
previous, relative to the running currentLevel), the run emits no diagnostic,
ignores the strict flag, and appends exactly the in-range (depth, title)
pairs at the end of the depth-first order. -/
theorem tbRun_chain (depth : Nat) :
    ∀ (hs : List Heading) (st : TB) (ds0 : List String),
      TBInv st →
      stepsLE1 (hs.map (fun h => h.level)) = true →
      (∀ h0, hs.head? = some h0 → h0.level ≤ st.currentLevel + 1 ∨ depth ≤ h0.level) →
      (∀ strict, (tbRun depth strict (ds0, some st) hs).1 = ds0) ∧
      (∀ s1 s2, tbRun depth s1 (ds0, some st) hs = tbRun depth s2 (ds0, some st) hs) ∧
      (∀ strict ds' st', tbRun depth strict (ds0, some st) hs = (ds', some st') →
        ∀ d, dfsEntry d st'.toc = dfsEntry d st.toc ++
          hs.filterMap (fun h => if h.level < depth then
            some (d + h.level + 1, some h.title) else none)) := by
  intro hs
  induction hs with
  | nil =>
    intro st ds0 hInv hsteps hhead
    refine ⟨fun strict => rfl, fun s1 s2 => rfl, fun strict ds' st' hrun d => ?_⟩
    simp [tbRun] at hrun
    obtain ⟨_, h2⟩ := hrun
    subst h2
    simp
  | cons h rest ih =>
    intro st ds0 hInv hsteps hhead
    have hh := hhead h rfl
    have hnj : ¬(h.level < depth ∧ st.currentLevel + 1 < h.level) := by
      rcases hh with h1 | h1 <;> omega
    have hdiag : ∀ strict, (tbStep depth strict st h).1 = [] := by
      intro strict
      rw [tbStep_diag, if_neg hnj]
    have hirrel : ∀ s1 s2, tbStep depth s1 st h = tbStep depth s2 st h :=
      fun s1 s2 => tbStep_strict_irrel depth s1 s2 st h hnj
    have hunroll : ∀ strict, tbRun depth strict (ds0, some st) (h :: rest) =
        tbRun depth strict (ds0, (tbStep depth false st h).2) rest := by
      intro strict
      rw [show tbRun depth strict (ds0, some st) (h :: rest) =
        tbRun depth strict (ds0 ++ (tbStep depth strict st h).1,
          (tbStep depth strict st h).2) rest from rfl]
      rw [hirrel strict false, hdiag false]
      simp
    rcases hs2 : (tbStep depth false st h).2 with _ | st1
    · -- the step throws: the run stops with no further output
      have hrunf : ∀ strict, tbRun depth strict (ds0, some st) (h :: rest) = (ds0, none) := by
        intro strict
        rw [hunroll strict, hs2, tbRun_none]
      refine ⟨fun strict => by rw [hrunf strict],
        fun s1 s2 => by rw [hrunf s1, hrunf s2], ?_⟩
      intro strict ds' st' hrun
      rw [hrunf strict] at hrun
      have := congrArg Prod.snd hrun
      simp at this
    · have hstep : tbStep depth false st h = ([], some st1) := by
        have h1 := hdiag false
        rw [show tbStep depth false st h =
          ((tbStep depth false st h).1, (tbStep depth false st h).2) from rfl, h1, hs2]
      obtain ⟨hInv1, hbr⟩ := tbStep_spec depth false st h [] st1 hInv hstep
      have hsteps_rest : stepsLE1 (rest.map (fun h => h.level)) = true :=
        stepsLE1_tail h.level _ (by simpa using hsteps)
      rcases hbr with ⟨hge, hst1, _⟩ | ⟨hlt, _, _, hcl, hdfs⟩ | ⟨hlt', hj, _, _⟩
      · -- out of range; every later level is at least as large, so also out
        have hhead_rest : ∀ h2, rest.head? = some h2 →
            h2.level ≤ st1.currentLevel + 1 ∨ depth ≤ h2.level := by
          intro h2 hh2
          cases rest with
          | nil => cases hh2
          | cons h2' r =>
            have he : h2'.level = h2.level := by
              have he' : h2' = h2 := by simpa using hh2
              rw [he']
            have hle := stepsLE1_head2 h.level h2'.level _ (by simpa using hsteps)
            right
            omega
        obtain ⟨ihA, ihB, ihC⟩ := ih st1 ds0 hInv1 hsteps_rest hhead_rest
        refine ⟨fun strict => by rw [hunroll strict, hs2]; exact ihA strict,
          fun s1 s2 => by rw [hunroll s1, hunroll s2, hs2]; exact ihB s1 s2, ?_⟩
        intro strict ds' st' hrun d
        rw [hunroll strict, hs2] at hrun
        rw [ihC strict ds' st' hrun d]
        rw [filterMap_pairs_skip depth d h rest (by omega)]
        rw [hst1]
      · -- placed at its level; the next level is at most one above it
        have hhead_rest : ∀ h2, rest.head? = some h2 →
            h2.level ≤ st1.currentLevel + 1 ∨ depth ≤ h2.level := by
          intro h2 hh2
          cases rest with
          | nil => cases hh2
          | cons h2' r =>
            have he : h2'.level = h2.level := by
              have he' : h2' = h2 := by simpa using hh2
              rw [he']
            have hle := stepsLE1_head2 h.level h2'.level _ (by simpa using hsteps)
            left
            omega
        obtain ⟨ihA, ihB, ihC⟩ := ih st1 ds0 hInv1 hsteps_rest hhead_rest
        refine ⟨fun strict => by rw [hunroll strict, hs2]; exact ihA strict,
          fun s1 s2 => by rw [hunroll s1, hunroll s2, hs2]; exact ihB s1 s2, ?_⟩
        intro strict ds' st' hrun d
        rw [hunroll strict, hs2] at hrun
        rw [ihC strict ds' st' hrun d, hdfs d]
        rw [filterMap_pairs_cons depth d h rest hlt]
        simp
      · exact absurd ⟨hlt', hj⟩ hnj

/-! ## From buildToC_json to the run over the flattened stream -/

theorem buildToC_json_run (pages : List Page) (depth : Nat) (strict : Bool) :
    buildToC_json pages depth strict =
      ((tbRun depth strict ([], some initTB) (flatHeadings pages)).1,
       (tbRun depth strict ([], some initTB) (flatHeadings pages)).2.map
         (fun st => rootChildren st.toc)) := by
  unfold buildToC_json
  rw [foldl_tbRun]

theorem initTB_rootish : rootish initTB.toc := ⟨[], rfl⟩

/-- A successful run yields a state whose tree is the root object around the
returned children. -/
theorem buildToC_json_final (pages : List Page) (depth : Nat) (strict : Bool)
    (cs : List JTree)
    (hres : (buildToC_json pages depth strict).2 = some cs) :
    ∃ st' ds', tbRun depth strict ([], some initTB) (flatHeadings pages) = (ds', some st') ∧
      st'.toc = JTree.node none none (some cs) := by
  rw [buildToC_json_run] at hres
  simp only at hres
  rcases h2 : (tbRun depth strict ([], some initTB) (flatHeadings pages)).2 with _ | st'
  · rw [h2] at hres; cases hres
  · rw [h2] at hres
    simp at hres
    have hpair : tbRun depth strict ([], some initTB) (flatHeadings pages) =
        ((tbRun depth strict ([], some initTB) (flatHeadings pages)).1, some st') := by
      rw [← h2]
    have hr : rootish st'.toc :=
      tbRun_keeps_root depth strict (flatHeadings pages) [] initTB _ st' initTB_rootish hpair
    obtain ⟨rcs, hrcs⟩ := hr
    refine ⟨st', _, hpair, ?_⟩
    rw [hrcs] at hres ⊢
    simp [rootChildren] at hres
    rw [hres]

/-! ## Claim C6: order preservation of the nested-form builder -/

/-- C6.  For every heading stream and every max depth, whenever the
nested-form builder completes, the depth-first in-order traversal of the
titles of its tree equals the input titles filtered to level < depth, in
order: exactly in lenient mode (placeholders carry no title and are skipped
by the projection), and as an order-preserving sublist in strict mode, where
the only omissions are the headings discarded by the jump branch. -/
theorem toc_json_order_preservation (pages : List Page) (depth : Nat) (strict : Bool)
    (cs : List JTree)
    (hres : (buildToC_json pages depth strict).2 = some cs) :
    ((dfsChildren 0 cs).filterMap Prod.snd).Sublist (inRangeTitles pages depth) ∧
    (strict = false →
      (dfsChildren 0 cs).filterMap Prod.snd = inRangeTitles pages depth) := by
  obtain ⟨st', ds', hrn, hshape⟩ := buildToC_json_final pages depth strict cs hres
  obtain ⟨_, htail⟩ :=
    tbRun_order depth strict (flatHeadings pages) [] initTB ds' st' initTB_inv hrn
  obtain ⟨tail, ht1, ht2, ht3⟩ := htail 0
  rw [hshape] at ht1
  have hskel : (0, (none : Option String)) :: dfsChildren 1 cs = (0, none) :: tail := by
    rw [show ((0, (none : Option String)) :: dfsChildren 1 cs) =
      dfsEntry 0 (JTree.node none none (some cs)) from by simp [dfsEntry]]
    rw [ht1]
    rfl
  have htl : dfsChildren 1 cs = tail := by
    injection hskel
  have hsh : dfsChildren 1 cs = (dfsChildren 0 cs).map (fun x => (x.1 + 1, x.2)) := by
    have := dfsChildren_shift cs 1 0
    simpa using this
  have hfm : (dfsChildren 0 cs).filterMap Prod.snd = tail.filterMap Prod.snd := by
    rw [← htl, hsh, List.filterMap_map]
    rfl
  rw [hfm]
  exact ⟨ht2, ht3⟩

theorem toc_json_order_preservation_witness :
    ((buildToC_json pagesJump 6 false).2 = some
      [JTree.node (some "A") (some "page.html") (some
        [JTree.node none none (some
          [JTree.node (some "C") (some "page.html#c") none])])]) ∧
    (((dfsChildren 0
        [JTree.node (some "A") (some "page.html") (some
          [JTree.node none none (some
            [JTree.node (some "C") (some "page.html#c") none])])]).filterMap
        Prod.snd).Sublist (inRangeTitles pagesJump 6) ∧
      (false = false →
        (dfsChildren 0
          [JTree.node (some "A") (some "page.html") (some
            [JTree.node none none (some
              [JTree.node (some "C") (some "page.html#c") none])])]).filterMap Prod.snd =
          inRangeTitles pagesJump 6)) :=
  ⟨rfl, toc_json_order_preservation pagesJump 6 false _ rfl⟩

/-! ## Claim C1: the [0,2] jump in strict and lenient mode -/

/-- C1.  On the stream with levels [0,2], strict mode drops the level-2
heading entirely: the resulting builder state (tree, insertion point and
currentLevel) is exactly the state after [0] alone, while the diagnostic is
still emitted.  Lenient mode produces one titleless, linkless placeholder as
the level-1 child of the level-0 entry, with the level-2 heading as the
placeholder's only child. -/
theorem toc_json_jump_strict_lenient :
    (tbRun 6 true ([], some initTB) (flatHeadings pagesJump)).2 =
      (tbRun 6 true ([], some initTB) (flatHeadings pagesZeroOnly)).2 ∧
    (buildToC_json pagesJump 6 true).1 = ["non-continous heading (h3): C"] ∧
    (buildToC_json pagesJump 6 true).2 = (buildToC_json pagesZeroOnly 6 true).2 ∧
    (buildToC_json pagesJump 6 false).2 = some
      [JTree.node (some "A") (some "page.html") (some
        [JTree.node none none (some
          [JTree.node (some "C") (some "page.html#c") none])])] :=
  ⟨rfl, rfl, rfl, rfl⟩

/-! ## Claim C3: the end-to-end scenario -/

/-- C3 counterexample.  Under the default configuration (keepAllHeadings
false, line 19 of ebook.js), "Background" resolves to no anchor, is not the
first heading of its page, and is dropped by parseHeadingsSync before
reaching the builder, so the pipeline does NOT produce the expected nested
form: the actual output has no Background entry at all. -/
theorem end_to_end_default_counterexample :
    (buildToC_json (parseHeadingsSync srcsEnd2End false) 6 false).2.map (dfsChildren 0) =
      some [(0, some "Intro"), (0, some "Conclusion")] ∧
    (some endToEndExpected).map (dfsChildren 0) =
      some [(0, some "Intro"), (1, some "Background"), (0, some "Conclusion")] ∧
    (buildToC_json (parseHeadingsSync srcsEnd2End false) 6 false).2 ≠
      some endToEndExpected := by
  refine ⟨rfl, rfl, ?_⟩
  intro hcontra
  have heq := congrArg (Option.map (dfsChildren 0)) hcontra
  rw [show (buildToC_json (parseHeadingsSync srcsEnd2End false) 6 false).2.map
      (dfsChildren 0) = some [(0, some "Intro"), (0, some "Conclusion")] from rfl] at heq
  rw [show (some endToEndExpected).map (dfsChildren 0) =
      some [(0, some "Intro"), (1, some "Background"), (0, some "Conclusion")] from rfl] at heq
  exact absurd heq (by decide)

/-- C3 amended.  With the keep-all-headings flag set, the pipeline produces
exactly the expected nested form: Background is kept as an unlinked child of
Intro; Intro and Conclusion, as first headings of their pages with no
usable identifier, link to their unqualified page hrefs. -/
theorem end_to_end_keep_all :
    parseHeadingsSync srcsEnd2End true =
      [⟨"A.html", [⟨0, "Intro", some "A.html"⟩, ⟨1, "Background", none⟩]⟩,
       ⟨"B.html", [⟨0, "Conclusion", some "B.html"⟩]⟩] ∧
    (buildToC_json (parseHeadingsSync srcsEnd2End true) 6 false).2 =
      some endToEndExpected ∧
    parseHeadingsSync srcsEnd2End false =
      [⟨"A.html", [⟨0, "Intro", some "A.html"⟩]⟩,
       ⟨"B.html", [⟨0, "Conclusion", some "B.html"⟩]⟩] :=
  ⟨rfl, rfl, rfl⟩

/-! ## Claim C9: a first in-range heading of level 1 throws -/

theorem tbRun_snd_cons (depth : Nat) (strict : Bool) (ds : List String) (st : TB)
    (h : Heading) (hs : List Heading) :
    tbRun depth strict (ds, some st) (h :: hs) =
      tbRun depth strict (ds ++ (tbStep depth strict st h).1,
        (tbStep depth strict st h).2) hs := rfl

theorem toc_json_first_level1_aux (depth : Nat) (strict : Bool) :
    ∀ (hs : List Heading) (ds0 : List String),
      (∀ h0, (hs.filter (fun h => h.level < depth)).head? = some h0 → h0.level = 1) →
      (∃ h0, (hs.filter (fun h => h.level < depth)).head? = some h0) →
      (tbRun depth strict (ds0, some initTB) hs).2 = none := by
  intro hs
  induction hs with
  | nil =>
    intro ds0 _ hex
    obtain ⟨h0, hh0⟩ := hex
    simp at hh0
  | cons h rest ih =>
    intro ds0 hfirst hex
    by_cases hdep : h.level < depth
    · -- h is the first in-range heading: level 1, the descend branch reads
      -- the last element of the empty root children array
      have hh : h.level = 1 := by
        apply hfirst h
        simp [List.filter_cons, hdep]
      have hstep : tbStep depth strict initTB h = ([], none) := by
        unfold tbStep
        rw [if_pos hdep]
        rw [if_neg (by simp [initTB])]
        rw [if_pos (by simp [initTB]; omega)]
        rw [show lastChildPath initTB.toc initTB.cur = none from rfl]
      rw [tbRun_snd_cons, hstep]
      rw [tbRun_none]
    · -- h is filtered out and the step leaves the pristine state unchanged
      have hstep : tbStep depth strict initTB h = ([], some initTB) := by
        unfold tbStep
        rw [if_neg hdep]
      rw [tbRun_snd_cons, hstep]
      apply ih
      · intro h0 hh0
        apply hfirst h0
        rw [List.filter_cons_of_neg (by simpa using hdep)]
        exact hh0
      · obtain ⟨h0, hh0⟩ := hex
        rw [List.filter_cons_of_neg (by simpa using hdep)] at hh0
        exact ⟨h0, hh0⟩

/-- C9.  If the first in-range heading of the flattened stream has level
exactly 1, the descend-one branch reads the last element of the still-empty
root children array and dereferences undefined: the builder throws (none in
the embedding) instead of producing a tree.  The specification's transition
policy presupposes a previously emitted entry and never states this case. -/
theorem toc_json_first_level1_throws (pages : List Page) (depth : Nat) (strict : Bool)
    (h0 : Heading)
    (hfirst : ((flatHeadings pages).filter (fun h => h.level < depth)).head? = some h0)
    (hlevel : h0.level = 1) :
    (buildToC_json pages depth strict).2 = none := by
  rw [buildToC_json_run]
  simp only
  rw [toc_json_first_level1_aux depth strict (flatHeadings pages) []
    (fun h1 hh1 => by rw [hfirst] at hh1; injection hh1 with he; rw [← he]; exact hlevel)
    ⟨h0, hfirst⟩]
  rfl

theorem toc_json_first_level1_throws_witness :
    (((flatHeadings pagesFirst1).filter (fun h => h.level < 6)).head? =
      some (⟨1, "B", some "p.html"⟩ : Heading)) ∧
    (buildToC_json pagesFirst1 6 false).2 = none :=
  ⟨rfl, toc_json_first_level1_throws pagesFirst1 6 false ⟨1, "B", some "p.html"⟩ rfl rfl⟩

/-! ## Claim C7: the non-contiguous branch under gentle level streams -/

/-- C7 counterexample.  The level stream [2] is non-decreasing and increases
by at most 1 at each step (there is no step), yet the builder starts at
currentLevel 0, so a first heading of level 2 enters the non-contiguous
branch and emits the diagnostic. -/
theorem toc_json_jump_fires_on_nondecreasing :
    stepsLE1 (levelsOf pagesSingle2) = true ∧
    (buildToC_json pagesSingle2 6 false).1 = ["non-continous heading (h3): X"] ∧
    (buildToC_json pagesSingle2 6 false).1 ≠ [] := by
  refine ⟨rfl, rfl, ?_⟩
  rw [show (buildToC_json pagesSingle2 6 false).1 =
    ["non-continous heading (h3): X"] from rfl]
  simp

/-- C7 amended.  If additionally the first heading's level is at most 1 (so
that the stream is contiguous with respect to the initial currentLevel 0),
the non-contiguous branch never executes: no diagnostic is emitted and the
entire run is independent of the strict flag (hence nothing is dropped and
no placeholder is synthesized). -/
theorem toc_json_no_jump_contiguous (pages : List Page) (depth : Nat)
    (hsteps : stepsLE1 (levelsOf pages) = true)
    (hfirst : ∀ l, (levelsOf pages).head? = some l → l ≤ 1) :
    (∀ strict, (buildToC_json pages depth strict).1 = []) ∧
    (∀ s1 s2, buildToC_json pages depth s1 = buildToC_json pages depth s2) := by
  have hhead : ∀ h0, (flatHeadings pages).head? = some h0 →
      h0.level ≤ initTB.currentLevel + 1 ∨ depth ≤ h0.level := by
    intro h0 hh0
    left
    have hl : (levelsOf pages).head? = some h0.level := by
      unfold levelsOf
      rw [List.head?_map, hh0]
      rfl
    have := hfirst h0.level hl
    simp [initTB]
    omega
  obtain ⟨hA, hB, _⟩ := tbRun_chain depth (flatHeadings pages) initTB [] initTB_inv
    hsteps hhead
  constructor
  · intro strict
    rw [buildToC_json_run]
    exact hA strict
  · intro s1 s2
    rw [buildToC_json_run, buildToC_json_run, hB s1 s2]

theorem toc_json_no_jump_contiguous_witness :
    (buildToC_json pagesZeroOnly 6 true).1 = [] ∧
    buildToC_json pagesZeroOnly 6 true = buildToC_json pagesZeroOnly 6 false :=
  ⟨(toc_json_no_jump_contiguous pagesZeroOnly 6 rfl
      (fun l hl => by
        rw [show (levelsOf pagesZeroOnly).head? = some 0 from rfl] at hl
        injection hl with he
        omega)).1 true,
   (toc_json_no_jump_contiguous pagesZeroOnly 6 rfl
      (fun l hl => by
        rw [show (levelsOf pagesZeroOnly).head? = some 0 from rfl] at hl
        injection hl with he
        omega)).2 true false⟩

/-! ## Claim C2: the renderers as views of one projected tree -/

theorem txt_foldl_filter (depth : Nat) :
    ∀ (l : List Heading) (s : String),
      l.foldl (fun txt h => if h.level < depth then txt ++ indent h.level ++ h.title else txt) s =
        (l.filterMap (fun h => if h.level < depth then some (h.level, h.title) else none)).foldl
          (fun txt q => txt ++ indent q.1 ++ q.2) s := by
  intro l
  induction l with
  | nil => intro s; rfl
  | cons h rest ih =>
    intro s
    by_cases hlt : h.level < depth
    · rw [List.foldl_cons, if_pos hlt]
      rw [show (h :: rest).filterMap
          (fun h => if h.level < depth then some (h.level, h.title) else none) =
        (h.level, h.title) :: rest.filterMap
          (fun h => if h.level < depth then some (h.level, h.title) else none) from by
        simp [List.filterMap_cons, hlt]]
      rw [List.foldl_cons]
      exact ih _
    · rw [List.foldl_cons, if_neg hlt]
      rw [show (h :: rest).filterMap
          (fun h => if h.level < depth then some (h.level, h.title) else none) =
        rest.filterMap
          (fun h => if h.level < depth then some (h.level, h.title) else none) from by
        simp [List.filterMap_cons, hlt]]
      exact ih _

theorem foldl_pages_flat (f : String → Heading → String) :
    ∀ (pages : List Page) (s : String),
      pages.foldl (fun txt page => page.headings.foldl f txt) s =
        (flatHeadings pages).foldl f s := by
  intro pages
  induction pages with
  | nil => intro s; rfl
  | cons page rest ih =>
    intro s
    rw [List.foldl_cons, ih]
    rw [show flatHeadings (page :: rest) = page.headings ++ flatHeadings rest from by
      simp [flatHeadings]]
    rw [List.foldl_append]

/-- The flat text renderer is exactly the rendering of the projected
(level, title) list: its output is determined by the projected tree
order. -/
theorem buildToC_txt_renders (pages : List Page) (depth : Nat) :
    buildToC_txt pages depth =
      (txtProj pages depth).foldl (fun txt q => txt ++ indent q.1 ++ q.2) "" ++ "\n" := by
  unfold buildToC_txt txtProj
  rw [foldl_pages_flat, txt_foldl_filter]

theorem liftTxt_txtProj (pages : List Page) (depth : Nat) :
    liftTxt (txtProj pages depth) =
      (flatHeadings pages).filterMap
        (fun h => if h.level < depth then some (h.level, some h.title) else none) := by
  unfold liftTxt txtProj
  rw [List.map_filterMap]
  congr 1
  funext h
  by_cases hlt : h.level < depth <;> simp [hlt]

/-! ### Projection and path machinery for the navigation renderer -/
theorem xhtmlProjOl_append (d : Nat) :
    ∀ (l1 l2 : List XLi),
      xhtmlProjOl d (l1 ++ l2) = xhtmlProjOl d l1 ++ xhtmlProjOl d l2 := by
  intro l1 l2
  induction l1 with
  | nil => simp [xhtmlProjOl]
  | cons li rest ih => simp [xhtmlProjOl, ih]

theorem xhtmlProjOls_append (d : Nat) :
    ∀ (o1 o2 : List (List XLi)),
      xhtmlProjOls d (o1 ++ o2) = xhtmlProjOls d o1 ++ xhtmlProjOls d o2 := by
  intro o1 o2
  induction o1 with
  | nil => simp [xhtmlProjOls]
  | cons ol rest ih => simp [xhtmlProjOls, ih]

theorem xhtmlProjOl_singleton (d : Nat) (li : XLi) :
    xhtmlProjOl d [li] = xhtmlProjLi d li := by
  simp [xhtmlProjOl]

theorem xhtmlProjOls_singleton (d : Nat) (ol : List XLi) :
    xhtmlProjOls d [ol] = xhtmlProjOl d ol := by
  simp [xhtmlProjOls]

theorem getOlSub_cons (lis : List XLi) (i j : Nat) (p : List (Nat × Nat))
    (lv : Nat) (tt : String) (hr : Option String) (ols : List (List XLi)) (ol : List XLi)
    (hli : lis[i]? = some (XLi.mk lv tt hr ols)) (hol : ols[j]? = some ol) :
    getOlSub lis ((i, j) :: p) = getOlSub ol p := by
  rw [show getOlSub lis ((i, j) :: p) =
    (match lis[i]? with
     | none => none
     | some li =>
       match (XLi.ols li)[j]? with
       | none => none
       | some ol => getOlSub ol p) from rfl]
  rw [hli]
  simp only
  rw [show XLi.ols (XLi.mk lv tt hr ols) = ols from rfl]
  rw [hol]

theorem modifyOlSub_cons (f : List XLi → Option (List XLi)) (lis : List XLi) (i j : Nat)
    (p : List (Nat × Nat)) (lv : Nat) (tt : String) (hr : Option String)
    (ols : List (List XLi)) (ol : List XLi)
    (hli : lis[i]? = some (XLi.mk lv tt hr ols)) (hol : ols[j]? = some ol) :
    modifyOlSub f lis ((i, j) :: p) =
      (match modifyOlSub f ol p with
       | none => none
       | some ol2 => some (lis.set i (XLi.mk lv tt hr (ols.set j ol2)))) := by
  rw [show modifyOlSub f lis ((i, j) :: p) =
    (match lis[i]? with
     | none => none
     | some li =>
       match (XLi.ols li)[j]? with
       | none => none
       | some ol =>
         match modifyOlSub f ol p with
         | none => none
         | some ol2 =>
           some (lis.set i (XLi.mk li.level li.title li.linkHref ((XLi.ols li).set j ol2)))) from
    rfl]
  rw [hli]
  simp only
  rw [show XLi.ols (XLi.mk lv tt hr ols) = ols from rfl]
  rw [hol]
  rfl

theorem getOlSub_append2 :
    ∀ (p q : List (Nat × Nat)) (lis : List XLi),
      getOlSub lis (p ++ q) =
        match getOlSub lis p with
        | none => none
        | some sub => getOlSub sub q := by
  intro p
  induction p with
  | nil => intro q lis; rfl
  | cons s p ih =>
    intro q lis
    obtain ⟨i, j⟩ := s
    rw [show ((i, j) :: p) ++ q = (i, j) :: (p ++ q) from rfl]
    rw [show getOlSub lis ((i, j) :: (p ++ q)) =
      (match lis[i]? with
       | none => none
       | some li =>
         match (XLi.ols li)[j]? with
         | none => none
         | some ol => getOlSub ol (p ++ q)) from rfl]
    rw [show getOlSub lis ((i, j) :: p) =
      (match lis[i]? with
       | none => none
       | some li =>
         match (XLi.ols li)[j]? with
         | none => none
         | some ol => getOlSub ol p) from rfl]
    rcases hli : lis[i]? with _ | li
    · rfl
    · simp only
      rcases hol : (XLi.ols li)[j]? with _ | ol
      · rfl
      · simp only
        exact ih q ol

/-- The ol path descends through the last li and its last appended ol at
every step: the shape of every selection the builder keeps on contiguous
streams, where appends keep every recorded index valid. -/
def XLastsTo : List XLi → List (Nat × Nat) → Prop
  | _, [] => True
  | lis, (i, j) :: p =>
    i + 1 = lis.length ∧
    ∃ li, lis[i]? = some li ∧ j + 1 = (XLi.ols li).length ∧
      ∃ ol, (XLi.ols li)[j]? = some ol ∧ XLastsTo ol p

theorem XLastsTo_snoc :
    ∀ (p : List (Nat × Nat)) (lis sub : List XLi) (i j : Nat) (li : XLi) (ol : List XLi),
      XLastsTo lis p → getOlSub lis p = some sub →
      i + 1 = sub.length → sub[i]? = some li →
      j + 1 = (XLi.ols li).length → (XLi.ols li)[j]? = some ol →
      XLastsTo lis (p ++ [(i, j)]) := by
  intro p
  induction p with
  | nil =>
    intro lis sub i j li ol _ hget hi hli hj hol
    have hget2 : some lis = some sub := hget
    have hrs : lis = sub := by injection hget2
    subst hrs
    exact ⟨hi, li, hli, hj, ol, hol, True.intro⟩
  | cons s p ih =>
    intro lis sub i j li ol hlast hget hi hli hj hol
    obtain ⟨i0, j0⟩ := s
    obtain ⟨hi0, li0, hli0, hj0, ol0, hol0, hrec⟩ := hlast
    obtain ⟨lv0, tt0, hr0, ols0⟩ := li0
    have hj0b : j0 + 1 = ols0.length := hj0
    have hol0b : ols0[j0]? = some ol0 := hol0
    have hget2 : getOlSub ol0 p = some sub := by
      rw [getOlSub_cons lis i0 j0 p lv0 tt0 hr0 ols0 ol0 hli0 hol0b] at hget
      exact hget
    exact ⟨hi0, XLi.mk lv0 tt0 hr0 ols0, hli0, hj0, ol0, hol0,
      ih ol0 sub i j li ol hrec hget2 hi hli hj hol⟩

/-- Modifying the ol at a last-li/last-ol path succeeds, is found again at
the same path, keeps the path shape, and rewrites only the final segment of
the document-order projection. -/
theorem xmodify_spec (f : List XLi → Option (List XLi)) :
    ∀ (p : List (Nat × Nat)) (lis sub sub' : List XLi),
      XLastsTo lis p → getOlSub lis p = some sub → f sub = some sub' →
      ∃ (lis' : List XLi) (front : Nat → List (Nat × String)),
        modifyOlSub f lis p = some lis' ∧
        getOlSub lis' p = some sub' ∧
        XLastsTo lis' p ∧
        (∀ d, xhtmlProjOl d lis = front d ++ xhtmlProjOl (d + p.length) sub) ∧
        (∀ d, xhtmlProjOl d lis' = front d ++ xhtmlProjOl (d + p.length) sub') := by
  intro p
  induction p with
  | nil =>
    intro lis sub sub' _ hget hf
    have hget2 : some lis = some sub := hget
    have hrs : lis = sub := by injection hget2
    subst hrs
    refine ⟨sub', (fun _ => [] : Nat → List (Nat × String)), hf, rfl, True.intro, ?_, ?_⟩
    · intro d
      simp
    · intro d
      simp
  | cons s p ih =>
    intro lis sub sub' hlast hget hf
    obtain ⟨i, j⟩ := s
    obtain ⟨hi, li, hli, hj, ol, hol, hrec⟩ := hlast
    obtain ⟨lv, tt, hr, ols⟩ := li
    have hjb : j + 1 = ols.length := hj
    have holb : ols[j]? = some ol := hol
    have hget2 : getOlSub ol p = some sub := by
      rw [getOlSub_cons lis i j p lv tt hr ols ol hli holb] at hget
      exact hget
    obtain ⟨ol', front', hmod', hget', hlast', hproj, hproj'⟩ := ih ol sub sub' hrec hget2 hf
    have hilen : i < lis.length := list_lt_of_getElem? hli
    have hjlen : j < ols.length := list_lt_of_getElem? holb
    have hroot_decomp : lis.dropLast ++ [XLi.mk lv tt hr ols] = lis :=
      list_last_decomp lis i _ hi hli
    have hols_decomp : ols.dropLast ++ [ol] = ols :=
      list_last_decomp ols j ol hjb holb
    have hset_root : lis.set i (XLi.mk lv tt hr (ols.set j ol')) =
        lis.dropLast ++ [XLi.mk lv tt hr (ols.set j ol')] :=
      list_set_last lis i _ hi
    have hset_ols : ols.set j ol' = ols.dropLast ++ [ol'] :=
      list_set_last ols j ol' hjb
    refine ⟨lis.set i (XLi.mk lv tt hr (ols.set j ol')),
      (fun d => xhtmlProjOl d lis.dropLast ++
        (d, tt) :: (xhtmlProjOls (d + 1) ols.dropLast ++ front' (d + 1))),
      ?_, ?_, ?_, ?_, ?_⟩
    · rw [modifyOlSub_cons f lis i j p lv tt hr ols ol hli holb]
      rw [hmod']
    · rw [getOlSub_cons _ i j p lv tt hr (ols.set j ol') ol'
        (list_getElem?_set_self lis i _ hilen)
        (list_getElem?_set_self ols j ol' hjlen)]
      exact hget'
    · refine ⟨?_, XLi.mk lv tt hr (ols.set j ol'),
        list_getElem?_set_self lis i _ hilen, ?_, ol',
        list_getElem?_set_self ols j ol' hjlen, hlast'⟩
      · rw [List.length_set]
        exact hi
      · rw [show XLi.ols (XLi.mk lv tt hr (ols.set j ol')) = ols.set j ol' from rfl]
        rw [List.length_set]
        exact hjb
    · intro d
      conv_lhs => rw [← hroot_decomp]
      rw [xhtmlProjOl_append, xhtmlProjOl_singleton]
      rw [show xhtmlProjLi d (XLi.mk lv tt hr ols) =
        (d, tt) :: xhtmlProjOls (d + 1) ols from rfl]
      conv_lhs => rw [← hols_decomp]
      rw [xhtmlProjOls_append, xhtmlProjOls_singleton]
      rw [hproj (d + 1)]
      rw [show d + ((i, j) :: p).length = d + 1 + p.length from by
        simp only [List.length_cons]
        omega]
      simp [List.append_assoc]
    · intro d
      rw [hset_root]
      rw [xhtmlProjOl_append, xhtmlProjOl_singleton]
      rw [show xhtmlProjLi d (XLi.mk lv tt hr (ols.set j ol')) =
        (d, tt) :: xhtmlProjOls (d + 1) (ols.set j ol') from rfl]
      rw [hset_ols]
      rw [xhtmlProjOls_append, xhtmlProjOls_singleton]
      rw [hproj' (d + 1)]
      rw [show d + ((i, j) :: p).length = d + 1 + p.length from by
        simp only [List.length_cons]
        omega]
      simp [List.append_assoc]

theorem liPathsOfOl_flat_last :
    ∀ (sub : List XLi) (i : Nat) (p : List (Nat × Nat)),
      (∀ li ∈ sub, XLi.ols li = []) → sub ≠ [] →
      (liPathsOfOl p i sub).getLast? = some (p, i + sub.length - 1) := by
  intro sub
  induction sub with
  | nil => intro i p _ hne; exact absurd rfl hne
  | cons li rest ih =>
    intro i p hflat hne
    obtain ⟨lv, tt, hr, ols⟩ := li
    have hols : ols = [] := hflat (XLi.mk lv tt hr ols) (by simp)
    subst hols
    have hstep : liPathsOfOl p i (XLi.mk lv tt hr [] :: rest) =
        (p, i) :: liPathsOfOl p (i + 1) rest := rfl
    rw [hstep]
    cases rest with
    | nil => rfl
    | cons li2 rest2 =>
      have hflat2 : ∀ li ∈ li2 :: rest2, XLi.ols li = [] :=
        fun l hl => hflat l (by simp [hl])
      have hrec := ih (i + 1) p hflat2 (by simp)
      obtain ⟨lv2, tt2, hr2, ols2⟩ := li2
      have hcons : liPathsOfOl p (i + 1) (XLi.mk lv2 tt2 hr2 ols2 :: rest2) =
          (p, i + 1) :: (liPathsOfLi p (i + 1) (XLi.mk lv2 tt2 hr2 ols2) ++
            liPathsOfOl p (i + 2) rest2) := rfl
      rw [hcons, List.getLast?_cons_cons, ← hcons, hrec]
      simp only [Option.some.injEq, Prod.mk.injEq, List.length_cons]
      exact ⟨True.intro, by omega⟩

theorem liPathsOfOl_flat_last0 (sub : List XLi) (p : List (Nat × Nat))
    (hflat : ∀ li ∈ sub, XLi.ols li = []) (hne : sub ≠ []) :
    (liPathsOfOl p 0 sub).getLast? = some (p, sub.length - 1) := by
  rw [liPathsOfOl_flat_last sub 0 p hflat hne]
  simp only [Option.some.injEq, Prod.mk.injEq]
  exact ⟨True.intro, by omega⟩

theorem olPathsIn_flat :
    ∀ (sub : List XLi) (i : Nat) (p : List (Nat × Nat)),
      (∀ li ∈ sub, XLi.ols li = []) → olPathsIn p i sub = [] := by
  intro sub
  induction sub with
  | nil => intro i p _; rfl
  | cons li rest ih =>
    intro i p hflat
    obtain ⟨lv, tt, hr, ols⟩ := li
    have hols : ols = [] := hflat (XLi.mk lv tt hr ols) (by simp)
    subst hols
    have h1 : olPathsIn p i (XLi.mk lv tt hr [] :: rest) =
        olPathsInLi p i (XLi.mk lv tt hr []) ++ olPathsIn p (i + 1) rest := rfl
    rw [h1]
    rw [show olPathsInLi p i (XLi.mk lv tt hr []) = [] from rfl]
    rw [ih (i + 1) p (fun l hl => hflat l (by simp [hl]))]
    rfl

theorem olPathsIn_append :
    ∀ (l1 l2 : List XLi) (i : Nat) (p : List (Nat × Nat)),
      olPathsIn p i (l1 ++ l2) = olPathsIn p i l1 ++ olPathsIn p (i + l1.length) l2 := by
  intro l1
  induction l1 with
  | nil =>
    intro l2 i p
    rw [show ([] : List XLi) ++ l2 = l2 from rfl]
    rw [show olPathsIn p i ([] : List XLi) = [] from rfl]
    simp
  | cons li l1 ih =>
    intro l2 i p
    have h1 : olPathsIn p i ((li :: l1) ++ l2) =
        olPathsInLi p i li ++ olPathsIn p (i + 1) (l1 ++ l2) := rfl
    have h2 : olPathsIn p i (li :: l1) =
        olPathsInLi p i li ++ olPathsIn p (i + 1) l1 := rfl
    rw [h1, h2, ih l2 (i + 1) p]
    rw [show i + 1 + l1.length = i + (li :: l1).length from by
      simp only [List.length_cons]
      omega]
    simp [List.append_assoc]

/-- The builder state on a contiguous run: the current level holds a valid
selection whose path is one (last li, last ol) step per level, the ol it
points at is flat (no nested list appended into its items yet), and it is
empty only in the start state. -/
def XInv (st : XB) : Prop :=
  ∃ p sub,
    selLookup st.ols st.currentLevel = some (some p) ∧
    p.length = st.currentLevel ∧
    XLastsTo st.root p ∧
    getOlSub st.root p = some sub ∧
    (∀ li ∈ sub, XLi.ols li = []) ∧
    (sub = [] → st.root = [] ∧ st.currentLevel = 0)

theorem xbStep_skip (depth : Nat) (st : XB) (h : Heading) (hge : depth ≤ h.level) :
    xbStep depth st h = some st := by
  unfold xbStep
  rw [if_neg (by omega)]

/-- An in-range heading at the current level appends one li to the current
ol: the selection, its path shape and flatness survive, and the projection
gains exactly (level, title) at its end. -/
theorem xbStep_same (depth : Nat) (st : XB) (h : Heading)
    (hInv : XInv st) (hdep : h.level < depth) (hlv : h.level = st.currentLevel) :
    ∃ root2,
      xbStep depth st h = some { st with root := root2, currentLevel := h.level } ∧
      XInv { st with root := root2, currentLevel := h.level } ∧
      root2 ≠ [] ∧
      (∀ d, xhtmlProjOl d root2 = xhtmlProjOl d st.root ++ [(d + h.level, h.title)]) := by
  obtain ⟨p, sub, hsel, hplen, hlast, hget, hflat, hemp⟩ := hInv
  have hf : (fun lis => some (lis ++ [mkLi h])) sub = some (sub ++ [mkLi h]) := rfl
  obtain ⟨root2, front, hmod, hget2, hlast2, hproj, hproj2⟩ :=
    xmodify_spec (fun lis => some (lis ++ [mkLi h])) p st.root sub (sub ++ [mkLi h])
      hlast hget hf
  have hprojfin : ∀ d,
      xhtmlProjOl d root2 = xhtmlProjOl d st.root ++ [(d + h.level, h.title)] := by
    intro d
    rw [hproj2 d, xhtmlProjOl_append, xhtmlProjOl_singleton]
    rw [show xhtmlProjLi (d + p.length) (mkLi h) = [(d + p.length, h.title)] from rfl]
    rw [← List.append_assoc, ← hproj d, hplen, ← hlv]
  have hrne2 : root2 ≠ [] := by
    intro hc
    have h0 := hprojfin 0
    rw [hc] at h0
    rw [show xhtmlProjOl 0 ([] : List XLi) = [] from rfl] at h0
    exact absurd h0.symm (by simp)
  refine ⟨root2, ?_, ?_, hrne2, hprojfin⟩
  · unfold xbStep
    rw [if_pos hdep]
    rw [if_pos (by omega)]
    rw [show selLookup st.ols h.level = some (some p) from by rw [hlv]; exact hsel]
    simp only
    rw [show appendLiAt st.root p (mkLi h) = some root2 from hmod]
  · refine ⟨p, sub ++ [mkLi h], ?_, ?_, hlast2, hget2, ?_, ?_⟩
    · show selLookup st.ols h.level = some (some p)
      rw [hlv]
      exact hsel
    · show p.length = h.level
      omega
    · intro li hli
      rcases List.mem_append.mp hli with hm | hm
      · exact hflat li hm
      · have hx : li = mkLi h := by simpa using hm
        rw [hx]
        rfl
    · intro hc
      exact absurd hc (by simp)

/-- An in-range heading one level below the current one wraps a fresh ol
around its li inside the last li of the current ol, and records that ol as
the new level's selection; the projection gains (level, title) at its end. -/
theorem xbStep_up (depth : Nat) (st : XB) (h : Heading)
    (hInv : XInv st) (hdep : h.level < depth) (hlv : h.level = st.currentLevel + 1)
    (hrne : st.root ≠ []) :
    ∃ st',
      xbStep depth st h = some st' ∧
      XInv st' ∧ st'.currentLevel = h.level ∧ st'.root ≠ [] ∧
      (∀ d, xhtmlProjOl d st'.root = xhtmlProjOl d st.root ++ [(d + h.level, h.title)]) := by
  obtain ⟨p, sub, hsel, hplen, hlast, hget, hflat, hemp⟩ := hInv
  have hsubne : sub ≠ [] := by
    intro hc
    exact hrne (hemp hc).1
  have hn : 0 < sub.length := List.length_pos.mpr hsubne
  have hgetlast : sub[sub.length - 1]? = some (sub.get ⟨sub.length - 1, by omega⟩) :=
    List.getElem?_eq_getElem (by omega)
  rcases hLi : sub.get ⟨sub.length - 1, by omega⟩ with ⟨lv, tt, hr, lols⟩
  rw [hLi] at hgetlast
  have hlolsnil : lols = [] := by
    have hmem : XLi.mk lv tt hr lols ∈ sub := by
      rw [← hLi]
      exact List.get_mem sub (sub.length - 1) (by omega)
    exact hflat _ hmem
  subst hlolsnil
  have hf2 : (fun lis => match lis[sub.length - 1]? with
      | none => none
      | some li => some (lis.set (sub.length - 1)
          (XLi.mk li.level li.title li.linkHref (li.ols ++ [[mkLi h]])))) sub =
      some (sub.set (sub.length - 1) (XLi.mk lv tt hr [[mkLi h]])) := by
    simp only
    rw [hgetlast]
    rfl
  obtain ⟨root2, front, hmod, hget2, hlast2, hproj, hproj2⟩ :=
    xmodify_spec (fun lis => match lis[sub.length - 1]? with
      | none => none
      | some li => some (lis.set (sub.length - 1)
          (XLi.mk li.level li.title li.linkHref (li.ols ++ [[mkLi h]]))))
      p st.root sub (sub.set (sub.length - 1) (XLi.mk lv tt hr [[mkLi h]]))
      hlast hget hf2
  have hsub_decomp : sub.dropLast ++ [XLi.mk lv tt hr []] = sub :=
    list_last_decomp sub (sub.length - 1) _ (by omega) hgetlast
  have hsub2 : sub.set (sub.length - 1) (XLi.mk lv tt hr [[mkLi h]]) =
      sub.dropLast ++ [XLi.mk lv tt hr [[mkLi h]]] :=
    list_set_last sub (sub.length - 1) _ (by omega)
  have hprojsub2 : ∀ d2,
      xhtmlProjOl d2 (sub.set (sub.length - 1) (XLi.mk lv tt hr [[mkLi h]])) =
        xhtmlProjOl d2 sub ++ [(d2 + 1, h.title)] := by
    intro d2
    rw [hsub2, xhtmlProjOl_append, xhtmlProjOl_singleton]
    conv_rhs => rw [← hsub_decomp]
    rw [xhtmlProjOl_append, xhtmlProjOl_singleton]
    rw [show xhtmlProjLi d2 (XLi.mk lv tt hr [[mkLi h]]) =
      (d2, tt) :: [(d2 + 1, h.title)] from rfl]
    rw [show xhtmlProjLi d2 (XLi.mk lv tt hr []) = [(d2, tt)] from rfl]
    simp
  have hprojfin : ∀ d,
      xhtmlProjOl d root2 = xhtmlProjOl d st.root ++ [(d + h.level, h.title)] := by
    intro d
    rw [hproj2 d, hprojsub2 (d + p.length)]
    rw [← List.append_assoc, ← hproj d]
    rw [show d + p.length + 1 = d + h.level from by omega]
  have hrne2 : root2 ≠ [] := by
    intro hc
    have h0 := hprojfin 0
    rw [hc] at h0
    rw [show xhtmlProjOl 0 ([] : List XLi) = [] from rfl] at h0
    exact absurd h0.symm (by simp)
  have hlip : (liPathsOfOl p 0 sub).getLast? = some (p, sub.length - 1) :=
    liPathsOfOl_flat_last0 sub p hflat hsubne
  have holp : olPathsIn p 0 (sub.set (sub.length - 1) (XLi.mk lv tt hr [[mkLi h]])) =
      [p ++ [(sub.length - 1, 0)]] := by
    rw [hsub2, olPathsIn_append]
    rw [olPathsIn_flat sub.dropLast 0 p
      (fun l hl => hflat l (by rw [← hsub_decomp]; exact List.mem_append_left _ hl))]
    rw [show (0 : Nat) + sub.dropLast.length = sub.length - 1 from by
      simp only [List.length_dropLast]
      omega]
    rw [show olPathsIn p (sub.length - 1) [XLi.mk lv tt hr [[mkLi h]]] =
      [p ++ [(sub.length - 1, 0)]] from rfl]
    rfl
  refine ⟨{ root := root2,
            ols := ((h.level, some (p ++ [(sub.length - 1, 0)])) :: st.ols),
            currentLevel := h.level }, ?_, ?_, rfl, hrne2, hprojfin⟩
  · unfold xbStep
    rw [if_pos hdep]
    rw [if_neg (by omega)]
    rw [hsel]
    simp only
    rw [hget]
    simp only
    rw [hlip]
    simp only
    rw [show appendOlInLi st.root p (sub.length - 1) [mkLi h] = some root2 from hmod]
    simp only
    rw [hget2]
    simp only
    rw [holp]
    rw [show ([p ++ [(sub.length - 1, 0)]] : List (List (Nat × Nat))).getLast? =
      some (p ++ [(sub.length - 1, 0)]) from rfl]
  · refine ⟨p ++ [(sub.length - 1, 0)], [mkLi h], ?_, ?_, ?_, ?_, ?_, ?_⟩
    · show selLookup ((h.level, some (p ++ [(sub.length - 1, 0)])) :: st.ols) h.level =
        some (some (p ++ [(sub.length - 1, 0)]))
      unfold selLookup
      rw [show ((h.level, some (p ++ [(sub.length - 1, 0)])) :: st.ols).find?
          (fun q => q.1 == h.level) =
        some (h.level, some (p ++ [(sub.length - 1, 0)])) from
        List.find?_cons_of_pos _ (by simp)]
    · show (p ++ [(sub.length - 1, 0)]).length = h.level
      rw [List.length_append]
      rw [show ([(sub.length - 1, 0)] : List (Nat × Nat)).length = 1 from rfl]
      omega
    · show XLastsTo root2 (p ++ [(sub.length - 1, 0)])
      exact XLastsTo_snoc p root2
        (sub.set (sub.length - 1) (XLi.mk lv tt hr [[mkLi h]]))
        (sub.length - 1) 0 (XLi.mk lv tt hr [[mkLi h]]) [mkLi h]
        hlast2 hget2
        (by rw [List.length_set]; omega)
        (list_getElem?_set_self sub (sub.length - 1) _ (by omega))
        rfl rfl
    · show getOlSub root2 (p ++ [(sub.length - 1, 0)]) = some [mkLi h]
      rw [getOlSub_append2 p [(sub.length - 1, 0)] root2]
      rw [hget2]
      simp only
      rw [getOlSub_cons _ (sub.length - 1) 0 [] lv tt hr [[mkLi h]] [mkLi h]
        (list_getElem?_set_self sub (sub.length - 1) _ (by omega)) rfl]
      rfl
    · intro li hli
      have hx : li = mkLi h := by simpa using hli
      rw [hx]
      rfl
    · intro hc
      exact absurd hc (by simp)

theorem xbRun_nil (depth : Nat) (acc : Option XB) : xbRun depth acc [] = acc := by
  cases acc <;> rfl

theorem xbRun_noneN (depth : Nat) (hs : List Heading) : xbRun depth none hs = none := by
  cases hs <;> rfl

theorem xbRun_append (depth : Nat) :
    ∀ (l1 l2 : List Heading) (acc : Option XB),
      xbRun depth acc (l1 ++ l2) = xbRun depth (xbRun depth acc l1) l2 := by
  intro l1
  induction l1 with
  | nil =>
    intro l2 acc
    rw [show ([] : List Heading) ++ l2 = l2 from rfl, xbRun_nil]
  | cons h l1 ih =>
    intro l2 acc
    cases acc with
    | none => rw [xbRun_noneN, xbRun_noneN, xbRun_noneN]
    | some st =>
      rw [show (h :: l1) ++ l2 = h :: (l1 ++ l2) from rfl]
      rw [show xbRun depth (some st) (h :: (l1 ++ l2)) =
        xbRun depth (xbStep depth st h) (l1 ++ l2) from rfl]
      rw [show xbRun depth (some st) (h :: l1) =
        xbRun depth (xbStep depth st h) l1 from rfl]
      exact ih l2 (xbStep depth st h)

theorem foldl_xbRun (depth : Nat) :
    ∀ (pages : List Page) (acc : Option XB),
      pages.foldl (fun acc page => xbRun depth acc page.headings) acc =
        xbRun depth acc (flatHeadings pages) := by
  intro pages
  induction pages with
  | nil =>
    intro acc
    rw [show flatHeadings [] = [] from rfl, xbRun_nil]
    rfl
  | cons page rest ih =>
    intro acc
    rw [List.foldl_cons, ih]
    rw [show flatHeadings (page :: rest) = page.headings ++ flatHeadings rest from by
      simp [flatHeadings]]
    rw [xbRun_append]

theorem xfilter_cons (depth d : Nat) (h : Heading) (rest : List Heading)
    (hlt : h.level < depth) :
    (h :: rest).filterMap
        (fun h => if h.level < depth then some (d + h.level, h.title) else none) =
      (d + h.level, h.title) ::
        rest.filterMap
          (fun h => if h.level < depth then some (d + h.level, h.title) else none) := by
  simp [List.filterMap_cons, hlt]

theorem xfilter_skip (depth d : Nat) (h : Heading) (rest : List Heading)
    (hge : depth ≤ h.level) :
    (h :: rest).filterMap
        (fun h => if h.level < depth then some (d + h.level, h.title) else none) =
      rest.filterMap
        (fun h => if h.level < depth then some (d + h.level, h.title) else none) := by
  simp [List.filterMap_cons, show ¬(h.level < depth) from by omega]

/-- On a level stream that never skips relative to the running currentLevel
(and starts at it or one above), the navigation builder never throws and
appends exactly the in-range (level, title) pairs, each at its own level,
at the end of the document-order projection. -/
theorem xbRun_chain (depth : Nat) :
    ∀ (hs : List Heading) (st : XB),
      XInv st →
      stepsLE1 (hs.map (fun h => h.level)) = true →
      (∀ h0, hs.head? = some h0 →
        (st.currentLevel ≤ h0.level ∧ h0.level ≤ st.currentLevel + 1) ∨ depth ≤ h0.level) →
      (st.root = [] → ∀ h0, hs.head? = some h0 → h0.level = 0 ∨ depth ≤ h0.level) →
      ∃ st', xbRun depth (some st) hs = some st' ∧
        ∀ d, xhtmlProjOl d st'.root = xhtmlProjOl d st.root ++
          hs.filterMap
            (fun h => if h.level < depth then some (d + h.level, h.title) else none) := by
  intro hs
  induction hs with
  | nil =>
    intro st hInv hsteps hhead hroot
    refine ⟨st, rfl, fun d => by simp⟩
  | cons h rest ih =>
    intro st hInv hsteps hhead hroot
    have hsteps_rest : stepsLE1 (rest.map (fun h => h.level)) = true :=
      stepsLE1_tail h.level _ (by simpa using hsteps)
    have hstep2 : ∀ h2, rest.head? = some h2 →
        h.level ≤ h2.level ∧ h2.level ≤ h.level + 1 := by
      intro h2 hh2
      cases rest with
      | nil => cases hh2
      | cons h2b r =>
        have he : h2b.level = h2.level := by
          have he2 : h2b = h2 := by simpa using hh2
          rw [he2]
        have hle := stepsLE1_head2 h.level h2b.level _ (by simpa using hsteps)
        omega
    by_cases hlt : h.level < depth
    · rcases hhead h rfl with ⟨hge, hle⟩ | hout
      · have hcase : h.level = st.currentLevel ∨ h.level = st.currentLevel + 1 := by omega
        rcases hcase with hsame | hup
        · obtain ⟨root2, hstep, hInv2, hrne2, hproj2⟩ :=
            xbStep_same depth st h hInv hlt hsame
          have hhead_rest : ∀ h2, rest.head? = some h2 →
              (({ st with root := root2, currentLevel := h.level } : XB).currentLevel ≤
                  h2.level ∧
                h2.level ≤
                  ({ st with root := root2, currentLevel := h.level } : XB).currentLevel + 1) ∨
              depth ≤ h2.level := by
            intro h2 hh2
            left
            have hs2 := hstep2 h2 hh2
            constructor
            · show h.level ≤ h2.level
              omega
            · show h2.level ≤ h.level + 1
              omega
          have hroot_rest :
              ({ st with root := root2, currentLevel := h.level } : XB).root = [] →
              ∀ h2, rest.head? = some h2 → h2.level = 0 ∨ depth ≤ h2.level := by
            intro hc
            exact absurd hc hrne2
          obtain ⟨st', hrun, hproj'⟩ := ih _ hInv2 hsteps_rest hhead_rest hroot_rest
          refine ⟨st', ?_, ?_⟩
          · rw [show xbRun depth (some st) (h :: rest) =
              xbRun depth (xbStep depth st h) rest from rfl, hstep]
            exact hrun
          · intro d
            rw [hproj' d]
            rw [show ({ st with root := root2, currentLevel := h.level } : XB).root = root2
              from rfl]
            rw [hproj2 d]
            rw [xfilter_cons depth d h rest hlt]
            simp [List.append_assoc]
        · have hrne : st.root ≠ [] := by
            intro hc
            rcases hroot hc h rfl with h0 | h0
            · omega
            · omega
          obtain ⟨st1, hstep, hInv1, hcl1, hrne1, hproj1⟩ :=
            xbStep_up depth st h hInv hlt hup hrne
          have hhead_rest : ∀ h2, rest.head? = some h2 →
              (st1.currentLevel ≤ h2.level ∧ h2.level ≤ st1.currentLevel + 1) ∨
              depth ≤ h2.level := by
            intro h2 hh2
            left
            have hs2 := hstep2 h2 hh2
            rw [hcl1]
            omega
          have hroot_rest : st1.root = [] → ∀ h2, rest.head? = some h2 →
              h2.level = 0 ∨ depth ≤ h2.level := by
            intro hc
            exact absurd hc hrne1
          obtain ⟨st', hrun, hproj'⟩ := ih st1 hInv1 hsteps_rest hhead_rest hroot_rest
          refine ⟨st', ?_, ?_⟩
          · rw [show xbRun depth (some st) (h :: rest) =
              xbRun depth (xbStep depth st h) rest from rfl, hstep]
            exact hrun
          · intro d
            rw [hproj' d, hproj1 d]
            rw [xfilter_cons depth d h rest hlt]
            simp [List.append_assoc]
      · omega
    · have hge : depth ≤ h.level := by omega
      have hstep := xbStep_skip depth st h hge
      have hhead_rest : ∀ h2, rest.head? = some h2 →
          (st.currentLevel ≤ h2.level ∧ h2.level ≤ st.currentLevel + 1) ∨
          depth ≤ h2.level := by
        intro h2 hh2
        right
        have hs2 := hstep2 h2 hh2
        omega
      have hroot_rest : st.root = [] → ∀ h2, rest.head? = some h2 →
          h2.level = 0 ∨ depth ≤ h2.level := by
        intro hc h2 hh2
        right
        have hs2 := hstep2 h2 hh2
        omega
      obtain ⟨st', hrun, hproj'⟩ := ih st hInv hsteps_rest hhead_rest hroot_rest
      refine ⟨st', ?_, ?_⟩
      · rw [show xbRun depth (some st) (h :: rest) =
          xbRun depth (xbStep depth st h) rest from rfl, hstep]
        exact hrun
      · intro d
        rw [hproj' d]
        rw [xfilter_skip depth d h rest hge]

/-- On a contiguous-from-0 stream the navigation builder completes and its
document-order projection is exactly the flat text projection: the two
renderers are views of the same projected tree. -/
theorem xhtml_agree_contiguous (pages : List Page) (depth : Nat)
    (hsteps : stepsLE1 (levelsOf pages) = true)
    (hfirst : ∀ l, (levelsOf pages).head? = some l → l = 0 ∨ depth ≤ l) :
    (buildToC_xhtml pages depth).map (fun nav => xhtmlProjOl 0 nav) =
      some (txtProj pages depth) := by
  have hInv : XInv initXB :=
    ⟨[], [], rfl, rfl, True.intro, rfl, by simp, fun _ => ⟨rfl, rfl⟩⟩
  have hlv : ∀ h0 : Heading, (flatHeadings pages).head? = some h0 →
      (levelsOf pages).head? = some h0.level := by
    intro h0 hh0
    unfold levelsOf
    rw [List.head?_map, hh0]
    rfl
  have hhead : ∀ h0, (flatHeadings pages).head? = some h0 →
      (initXB.currentLevel ≤ h0.level ∧ h0.level ≤ initXB.currentLevel + 1) ∨
      depth ≤ h0.level := by
    intro h0 hh0
    rcases hfirst h0.level (hlv h0 hh0) with h1 | h1
    · left
      have hcl : initXB.currentLevel = 0 := rfl
      omega
    · right
      exact h1
  have hroot : initXB.root = [] → ∀ h0, (flatHeadings pages).head? = some h0 →
      h0.level = 0 ∨ depth ≤ h0.level := by
    intro _ h0 hh0
    exact hfirst h0.level (hlv h0 hh0)
  obtain ⟨st', hrun, hproj⟩ :=
    xbRun_chain depth (flatHeadings pages) initXB hInv hsteps hhead hroot
  unfold buildToC_xhtml
  rw [foldl_xbRun, hrun]
  rw [show (some st').map (fun st : XB => st.root) = some st'.root from rfl]
  rw [show (some st'.root).map (fun nav => xhtmlProjOl 0 nav) =
    some (xhtmlProjOl 0 st'.root) from rfl]
  have h0 := hproj 0
  rw [show xhtmlProjOl 0 initXB.root = [] from rfl] at h0
  rw [List.nil_append] at h0
  rw [h0]
  congr 1
  unfold txtProj
  congr 1
  funext h
  by_cases hlt : h.level < depth <;> simp [hlt]

/-- C2 counterexample.  On the stream with levels [0,2] the three renderers
produce three pairwise different projected trees: the flat text keeps the
level-2 heading at depth 2, the nested form drops it (strict) or interposes
a placeholder at depth 1 (lenient), and the navigation markup form nests it
directly below the level-0 entry at depth 1. -/
theorem toc_renderers_disagree :
    liftTxt (txtProj pagesJump 6) = [(0, some "A"), (2, some "C")] ∧
    (buildToC_json pagesJump 6 true).2.map (dfsChildren 0) = some [(0, some "A")] ∧
    (buildToC_json pagesJump 6 false).2.map (dfsChildren 0) =
      some [(0, some "A"), (1, none), (2, some "C")] ∧
    (buildToC_xhtml pagesJump 6).map (fun ol => liftTxt (xhtmlProjOl 0 ol)) =
      some [(0, some "A"), (1, some "C")] ∧
    some (liftTxt (txtProj pagesJump 6)) ≠
      (buildToC_json pagesJump 6 false).2.map (dfsChildren 0) ∧
    some (liftTxt (txtProj pagesJump 6)) ≠
      (buildToC_json pagesJump 6 true).2.map (dfsChildren 0) ∧
    (buildToC_json pagesJump 6 false).2.map (dfsChildren 0) ≠
      (buildToC_xhtml pagesJump 6).map (fun ol => liftTxt (xhtmlProjOl 0 ol)) ∧
    (buildToC_json pagesJump 6 true).2.map (dfsChildren 0) ≠
      (buildToC_xhtml pagesJump 6).map (fun ol => liftTxt (xhtmlProjOl 0 ol)) := by
  refine ⟨rfl, rfl, rfl, rfl, ?_, ?_, ?_, ?_⟩ <;> decide

/-- C2 amended.  On level streams that are contiguous from 0 (non-decreasing
in steps of at most 1, first in-range level 0), the three renderers are
views of the same projected tree: the depth-first (depth, title) projection
of the completed nested form equals the flat text projection, the navigation
markup builder completes and its document-order projection equals the flat
text projection as well, and the text output is exactly that projection's
rendering.  On non-contiguous streams the renderers diverge, as witnessed
by the counterexample. -/
theorem toc_renderers_agree_contiguous (pages : List Page) (depth : Nat) (strict : Bool)
    (cs : List JTree)
    (hsteps : stepsLE1 (levelsOf pages) = true)
    (hfirst : ∀ l, (levelsOf pages).head? = some l → l = 0 ∨ depth ≤ l)
    (hres : (buildToC_json pages depth strict).2 = some cs) :
    dfsChildren 0 cs = liftTxt (txtProj pages depth) ∧
    (buildToC_xhtml pages depth).map (fun nav => xhtmlProjOl 0 nav) =
      some (txtProj pages depth) ∧
    buildToC_txt pages depth =
      (txtProj pages depth).foldl (fun txt q => txt ++ indent q.1 ++ q.2) "" ++ "\n" := by
  refine ⟨?_, xhtml_agree_contiguous pages depth hsteps hfirst,
    buildToC_txt_renders pages depth⟩
  obtain ⟨st', ds', hrn, hshape⟩ := buildToC_json_final pages depth strict cs hres
  have hhead : ∀ h0, (flatHeadings pages).head? = some h0 →
      h0.level ≤ initTB.currentLevel + 1 ∨ depth ≤ h0.level := by
    intro h0 hh0
    have hl : (levelsOf pages).head? = some h0.level := by
      unfold levelsOf
      rw [List.head?_map, hh0]
      rfl
    rcases hfirst h0.level hl with h1 | h1
    · left
      simp [initTB]
      omega
    · right
      exact h1
  obtain ⟨_, _, hC⟩ := tbRun_chain depth (flatHeadings pages) initTB [] initTB_inv
    hsteps hhead
  have hdfs := hC strict ds' st' hrn 0
  rw [hshape] at hdfs
  have hskel : (0, (none : Option String)) :: dfsChildren 1 cs =
      (0, none) :: (flatHeadings pages).filterMap
        (fun h => if h.level < depth then some (0 + h.level + 1, some h.title) else none) := by
    rw [show ((0, (none : Option String)) :: dfsChildren 1 cs) =
      dfsEntry 0 (JTree.node none none (some cs)) from by simp [dfsEntry]]
    rw [hdfs]
    rfl
  have htl : dfsChildren 1 cs =
      (flatHeadings pages).filterMap
        (fun h => if h.level < depth then some (0 + h.level + 1, some h.title) else none) := by
    injection hskel
  have hsh : dfsChildren 1 cs = (dfsChildren 0 cs).map (fun x => (x.1 + 1, x.2)) := by
    have := dfsChildren_shift cs 1 0
    simpa using this
  have hinj : Function.Injective (fun x : Nat × Option String => (x.1 + 1, x.2)) := by
    intro a b hab
    obtain ⟨a1, a2⟩ := a
    obtain ⟨b1, b2⟩ := b
    simp at hab
    obtain ⟨h1, h2⟩ := hab
    simp [h1, h2]
  apply List.map_injective_iff.mpr hinj
  rw [← hsh, htl]
  rw [liftTxt_txtProj, List.map_filterMap]
  congr 1
  funext h
  by_cases hlt : h.level < depth <;> simp [hlt]

theorem toc_renderers_agree_contiguous_witness :
    dfsChildren 0 [JTree.node (some "A") (some "page.html") none] =
      liftTxt (txtProj pagesZeroOnly 6) ∧
    (buildToC_xhtml pagesZeroOnly 6).map (fun nav => xhtmlProjOl 0 nav) =
      some (txtProj pagesZeroOnly 6) ∧
    buildToC_txt pagesZeroOnly 6 =
      (txtProj pagesZeroOnly 6).foldl (fun txt q => txt ++ indent q.1 ++ q.2) "" ++ "\n" :=
  toc_renderers_agree_contiguous pagesZeroOnly 6 false
    [JTree.node (some "A") (some "page.html") none] rfl
    (fun l hl => by
      rw [show (levelsOf pagesZeroOnly).head? = some 0 from rfl] at hl
      injection hl with he
      omega)
    rfl

/-! ## Claim C5: ascending re-derives the insertion point from the root -/

/-- C5.  When a heading's level is below currentLevel (and in range), the
step re-derives the insertion point by walking from the tree root, descending
exactly heading.level times through each level's last child, and appends the
new entry there; concretely, on levels [0,1,2,1] the second level-1 heading
becomes the second child of the level-0 entry (a sibling of the first
level-1 heading), not a child of the level-2 heading. -/
theorem toc_json_ascend_rederives (depth : Nat) (strict : Bool) (st : TB) (h : Heading)
    (p : List Nat) (toc' : JTree)
    (hdep : h.level < depth) (hlt : h.level < st.currentLevel)
    (hdl : descendLast st.toc h.level [] = some p)
    (hpc : pushChild st.toc p (mkEntry h) = some toc') :
    tbStep depth strict st h = ([], some ⟨toc', p, h.level⟩) ∧
    (buildToC_json pagesLevels0121 6 false).2 = some
      [JTree.node (some "a") (some "p.html") (some
        [JTree.node (some "b") none (some [JTree.node (some "c") none none]),
         JTree.node (some "d") none none])] := by
  constructor
  · unfold tbStep
    rw [if_pos hdep, if_pos hlt, hdl]
    simp only
    rw [hpc]
  · rfl

theorem toc_json_ascend_rederives_witness :
    tbStep 6 false
      ⟨JTree.node none none (some [JTree.node (some "a") (some "p.html")
          (some [JTree.node (some "b") none (some [JTree.node (some "c") none none])])]),
       [0, 0], 2⟩
      ⟨1, "d", none⟩ =
      ([], some ⟨JTree.node none none (some [JTree.node (some "a") (some "p.html")
          (some [JTree.node (some "b") none (some [JTree.node (some "c") none none]),
                 JTree.node (some "d") none none])]),
        [0], 1⟩) ∧
    (buildToC_json pagesLevels0121 6 false).2 = some
      [JTree.node (some "a") (some "p.html") (some
        [JTree.node (some "b") none (some [JTree.node (some "c") none none]),
         JTree.node (some "d") none none])] :=
  toc_json_ascend_rederives 6 false
    ⟨JTree.node none none (some [JTree.node (some "a") (some "p.html")
        (some [JTree.node (some "b") none (some [JTree.node (some "c") none none])])]),
     [0, 0], 2⟩
    ⟨1, "d", none⟩ [0] _ (by decide) (by decide) rfl rfl

/-! ## Claim C8: headings without a usable anchor -/

/-- C8.  A heading on which anchor resolution finds no identifier receives
the unqualified page href when it is the first heading element of its page;
otherwise it gets no link and survives into the heading stream exactly when
the keep-all-headings flag is set (under the default configuration it is
dropped before reaching the tree builder). -/
theorem parse_heading_no_anchor (doc : Dom) (pageHref : String) (keep : Bool)
    (index : Nat) (p : List Nat) (e : Dom)
    (hdom : domAt doc p = some e)
    (hid : getHeadingID doc p = "") :
    (index = 0 → parseHeadingElem doc pageHref keep index p =
      some ⟨tagLevel (Dom.tag e), normalizeWS (domText e), some pageHref⟩) ∧
    (index ≠ 0 → parseHeadingElem doc pageHref keep index p =
      (if keep then some ⟨tagLevel (Dom.tag e), normalizeWS (domText e), none⟩ else none)) := by
  constructor
  · intro h0
    unfold parseHeadingElem
    rw [hdom]
    simp [hid, h0]
  · intro h0
    unfold parseHeadingElem
    rw [hdom]
    simp [hid, h0]

theorem parse_heading_no_anchor_witness :
    parseHeadingElem docIntro "A.html" false 1 [1] = none ∧
    parseHeadingElem docIntro "A.html" true 1 [1] =
      some ⟨1, "Background", none⟩ := by
  constructor
  · have h := (parse_heading_no_anchor docIntro "A.html" false 1 [1]
      (Dom.node "h2" "" "Background" []) rfl rfl).2 (by omega)
    simpa using h
  · have h := (parse_heading_no_anchor docIntro "A.html" true 1 [1]
      (Dom.node "h2" "" "Background" []) rfl rfl).2 (by omega)
    simpa [tagLevel, normalizeWS, trimWS, collapseWS, domText, Dom.tag] using h

/-! ## Claim C10: unsupported output views -/

/-- C10.  When the resolved output view (format argument, falling back to
config.format when falsy) is none of txt, json, ncx, xhtml, buildToC reports
the configuration error on the diagnostic channel and returns the untouched
empty output. -/
theorem buildToC_unsupported_format (config : Config) (format : Option String)
    (pages? : Option (List Page)) (fmt : String)
    (hfmt : (match format with
        | none => config.format
        | some s => if s = "" then config.format else s) = fmt)
    (h1 : fmt ≠ "txt") (h2 : fmt ≠ "json") (h3 : fmt ≠ "ncx") (h4 : fmt ≠ "xhtml") :
    buildToC config format pages? =
      (["unsupported output format: \"" ++ config.format ++ "\""], some "") := by
  unfold buildToC
  dsimp only
  rw [hfmt]
  simp only [if_neg h1, if_neg h2, if_neg h3, if_neg h4]

theorem buildToC_unsupported_format_witness :
    buildToC cfgUnsupported none (some []) =
      (["unsupported output format: \"pdf\""], some "") := by
  have h := buildToC_unsupported_format cfgUnsupported none (some []) "pdf"
    rfl (by decide) (by decide) (by decide) (by decide)
  simpa [cfgUnsupported] using h

/-! ## Claim C4: anchor resolution through the nearest identified ancestor -/

theorem str_len_zero (s : String) : s.length = 0 ↔ s = "" := by
  constructor
  · intro h
    cases s with
    | mk data =>
      have hd : data = [] := List.length_eq_zero.mp (by simpa [String.length] using h)
      simp [hd]
  · intro h
    simp [h]

theorem getHeadingIDAux_eq (root : Dom) (rp : List Nat) (txt : String) :
    getHeadingIDAux root rp txt =
      if txt.length = 0 then
        match domAt root rp.reverse with
        | none => ""
        | some e =>
          if (Dom.ident e).length ≠ 0 then Dom.ident e
          else
            match rp with
            | [] => ""
            | _ :: rp' => getHeadingIDAux root rp' (txt ++ prevSibsText root rp.reverse)
      else "" := by
  cases rp with
  | nil => rfl
  | cons r rp' => rfl

theorem domAt_append :
    ∀ (p q : List Nat) (root : Dom),
      domAt root (p ++ q) =
        match domAt root p with
        | none => none
        | some e => domAt e q := by
  intro p
  induction p with
  | nil => intro q root; simp [domAt]
  | cons i p ih =>
    intro q root
    cases root with
    | node tg idn own cs =>
      rw [show ((i :: p) ++ q) = i :: (p ++ q) from rfl]
      rw [show domAt (Dom.node tg idn own cs) (i :: (p ++ q)) =
        (match (Dom.childList (Dom.node tg idn own cs))[i]? with
         | none => none
         | some c => domAt c (p ++ q)) from rfl]
      rw [show domAt (Dom.node tg idn own cs) (i :: p) =
        (match (Dom.childList (Dom.node tg idn own cs))[i]? with
         | none => none
         | some c => domAt c p) from rfl]
      rcases hgc : (Dom.childList (Dom.node tg idn own cs))[i]? with _ | c
      · simp
      · simp only
        exact ih q c

theorem foldl_strcat_init (f : Nat → String) :
    ∀ (l : List Nat) (s : String),
      l.foldl (fun acc x => acc ++ f x) s = s ++ l.foldl (fun acc x => acc ++ f x) "" := by
  intro l
  induction l with
  | nil => intro s; simp
  | cons x xs ih =>
    intro s
    rw [List.foldl_cons, List.foldl_cons, ih (s ++ f x), ih ("" ++ f x)]
    simp [String.append_assoc]

/-- The while loop of getHeadingID: if the first k ancestors (the element
itself included) carry no id, the k-th carries one, and each visited node
exists, then the walk returns the k-th ancestor's id when the accumulated
preceding-sibling text is empty, and the empty string otherwise. -/
theorem getHeadingIDAux_spec (root : Dom) :
    ∀ (k : Nat) (rp : List Nat) (txt : String),
      k ≤ rp.length →
      domAt root rp.reverse ≠ none →
      (∀ j, j < k → idAt root (rp.drop j).reverse = "") →
      idAt root (rp.drop k).reverse ≠ "" →
      getHeadingIDAux root rp txt =
        (if (txt ++ (List.range k).foldl
            (fun s j => s ++ prevSibsText root (rp.drop j).reverse) "").length = 0
         then idAt root (rp.drop k).reverse else "") := by
  intro k
  induction k with
  | zero =>
    intro rp txt hk hval hmid hanc
    rw [getHeadingIDAux_eq]
    rw [show (List.range 0).foldl
      (fun s j => s ++ prevSibsText root (rp.drop j).reverse) "" = "" from rfl]
    by_cases htxt : txt.length = 0
    · rw [if_pos htxt]
      rcases hdom : domAt root rp.reverse with _ | e
      · exfalso
        apply hanc
        simp [idAt, hdom]
      · simp only
        have hide : idAt root (rp.drop 0).reverse = Dom.ident e := by
          simp [idAt, hdom]
        have hlen : (Dom.ident e).length ≠ 0 := by
          intro hc
          apply hanc
          rw [hide]
          exact (str_len_zero _).mp hc
        rw [if_pos hlen]
        rw [if_pos (by rw [String.length_append]
                       have h0 : ("" : String).length = 0 := rfl
                       omega)]
        rw [hide]
    · rw [if_neg htxt]
      rw [if_neg (by rw [String.length_append]
                     have h0 : ("" : String).length = 0 := rfl
                     omega)]
  | succ k ih =>
    intro rp txt hk hval hmid hanc
    cases rp with
    | nil => simp at hk
    | cons r rp' =>
      by_cases htxt : txt.length = 0
      · rcases hdom : domAt root (r :: rp').reverse with _ | e
        · exact absurd hdom hval
        · have hdom2 : domAt root (rp'.reverse ++ [r]) = some e := by
            rw [← List.reverse_cons]
            exact hdom
          have hid0 : Dom.ident e = "" := by
            have h0 := hmid 0 (by omega)
            simpa [idAt, hdom2] using h0
          have hval' : domAt root rp'.reverse ≠ none := by
            intro hc
            apply hval
            rw [show (r :: rp').reverse = rp'.reverse ++ [r] from by simp]
            rw [domAt_append, hc]
          have hih := ih rp' (txt ++ prevSibsText root (r :: rp').reverse)
            (by simp at hk; omega) hval'
            (fun j hj => hmid (j + 1) (by omega))
            hanc
          have hstep : getHeadingIDAux root (r :: rp') txt =
              getHeadingIDAux root rp' (txt ++ prevSibsText root (r :: rp').reverse) := by
            rw [getHeadingIDAux_eq, if_pos htxt, hdom]
            simp only
            rw [if_neg (by rw [hid0]; simp)]
          rw [hstep, hih]
          have haccum : (List.range (k + 1)).foldl
              (fun s j => s ++ prevSibsText root ((r :: rp').drop j).reverse) "" =
            prevSibsText root (r :: rp').reverse ++
              (List.range k).foldl
                (fun s j => s ++ prevSibsText root (rp'.drop j).reverse) "" := by
            rw [List.range_succ_eq_map]
            rw [List.foldl_cons]
            rw [List.foldl_map]
            rw [foldl_strcat_init (fun j => prevSibsText root ((r :: rp').drop (j + 1)).reverse)
              (List.range k) ("" ++ prevSibsText root ((r :: rp').drop 0).reverse)]
            simp
          rw [haccum, ← String.append_assoc, List.drop_succ_cons]
      · rw [getHeadingIDAux_eq]
        rw [if_neg htxt]
        rw [if_neg (by rw [String.length_append]; omega)]

/-- C4.  For a heading element with no identifier of its own whose k-th
ancestor is the nearest one carrying an identifier: if the text of all the
preceding siblings encountered on the walk up to that ancestor is empty,
anchor resolution returns that ancestor's identifier; if that accumulated
text is non-empty, it returns no identifier (the empty string, falling
through to the first-heading / no-link rule of parseHeadingsSync). -/
theorem getHeadingID_nearest_ancestor (root : Dom) (p : List Nat) (k : Nat) (e : Dom)
    (hk : k ≤ p.length)
    (hdom : domAt root p = some e)
    (hmid : ∀ j, j < k → idAt root (p.take (p.length - j)) = "")
    (hanc : idAt root (p.take (p.length - k)) ≠ "") :
    getHeadingID root p =
      (if (ancestorsPrevText root p k).length = 0
       then idAt root (p.take (p.length - k)) else "") := by
  have hconv : ∀ j, (p.reverse.drop j).reverse = p.take (p.length - j) := by
    intro j
    rw [List.drop_reverse, List.reverse_reverse]
  unfold getHeadingID ancestorsPrevText
  rw [getHeadingIDAux_spec root k p.reverse ""
    (by simpa using hk)
    (by rw [List.reverse_reverse, hdom]; simp)
    (fun j hj => by rw [hconv j]; exact hmid j hj)
    (by rw [hconv k]; exact hanc)]
  have hempty : ∀ s : String, ("" ++ s) = s := by
    intro s
    simp
  rw [hempty]
  have hfold : (List.range k).foldl
      (fun s j => s ++ prevSibsText root (p.reverse.drop j).reverse) "" =
    (List.range k).foldl
      (fun s j => s ++ prevSibsText root (p.take (p.length - j))) "" := by
    apply List.foldl_ext
    intro s j hj
    rw [hconv j]
  rw [hfold, hconv k]

theorem getHeadingID_nearest_ancestor_witness :
    (getHeadingID docAncestor [0, 0] =
      (if (ancestorsPrevText docAncestor [0, 0] 2).length = 0
       then idAt docAncestor ([0, 0].take ([0, 0].length - 2)) else "")) ∧
    getHeadingID docAncestor [0, 0] = "sec" ∧
    (getHeadingID docAncestorBlocked [1, 0] =
      (if (ancestorsPrevText docAncestorBlocked [1, 0] 2).length = 0
       then idAt docAncestorBlocked ([1, 0].take ([1, 0].length - 2)) else "")) ∧
    getHeadingID docAncestorBlocked [1, 0] = "" :=
  ⟨getHeadingID_nearest_ancestor docAncestor [0, 0] 2 (Dom.node "h2" "" "T" [])
      (by decide) rfl (by decide) (by decide),
   rfl,
   getHeadingID_nearest_ancestor docAncestorBlocked [1, 0] 2 (Dom.node "h2" "" "T" [])
      (by decide) rfl (by decide) (by decide),
   rfl⟩
